import Mathlib

/-!
Verification of the `wormhole` networking core (`src/network/mod.rs`).

Shallow embedding conventions:
* Rust `u8`/`u16`/`u32` values are `Nat`s; the `as uN` casts of the source
  are modelled by explicit `% 2^N` reductions (`u8c`, and the byte-splitting
  functions `u16be`/`u32be` which truncate exactly as the Rust casts do).
* Rust `String`s are modelled by their UTF-8 byte sequences (`List Nat`).
  `String::from_utf8_lossy` is the identity on valid UTF-8, and every string
  a Rust program can place in a `Message` is valid UTF-8, so string fields
  are carried as raw byte lists and the lossy conversion is the identity in
  this model.
* `std::time::Instant` is a `Nat` (milliseconds); `Instant::now()` becomes an
  explicit `now` parameter, and `Duration` constants are in milliseconds.
  `Instant::duration_since` is saturating subtraction, which is `Nat`
  subtraction.
* `SocketAddr` is an abstract identifier, modelled as `Nat`.
* The `lz4_flex` dependency is external to the repository; it is modelled by
  an executable codec with the same interface and framing
  (`compress_prepend_size` prepends the uncompressed length as a 4-byte
  little-endian word; `decompress_size_prepended` inverts it and rejects
  malformed input).  The claims under verification depend only on the
  round-trip law of this interface, not on the compression ratio, so the
  model stores the payload verbatim after the length word.
* Socket I/O is dropped: `send_video_frame` returns the list of messages the
  source would send, and `connect_to_peer` performs only its state update.
-/

/-- Bytes on the wire: a list of naturals (each intended `< 256`). -/
abbrev Bytes := List Nat

/-- The Rust `as u8` cast. -/
def u8c (n : Nat) : Nat := n % 256

/-- `u16::to_be_bytes` of `n as u16`. -/
def u16be (n : Nat) : Bytes := [n / 256 % 256, n % 256]

/-- `u32::to_be_bytes` of `n as u32`. -/
def u32be (n : Nat) : Bytes :=
  [n / 16777216 % 256, n / 65536 % 256, n / 256 % 256, n % 256]

/-- `u32::to_le_bytes` of `n as u32` (used by the lz4 size header). -/
def u32le (n : Nat) : Bytes :=
  [n % 256, n / 256 % 256, n / 65536 % 256, n / 16777216 % 256]

/-- `u16::from_be_bytes([data[i], data[i+1]])`. -/
def readU16 (data : Bytes) (i : Nat) : Nat :=
  data.getD i 0 * 256 + data.getD (i + 1) 0

/-- `u32::from_be_bytes([data[i], .., data[i+3]])`. -/
def readU32 (data : Bytes) (i : Nat) : Nat :=
  ((data.getD i 0 * 256 + data.getD (i + 1) 0) * 256 + data.getD (i + 2) 0) * 256
    + data.getD (i + 3) 0

/-- A Rust sub-range `&data[i..i+n]` (only taken after a bounds check). -/
def byteSlice (data : Bytes) (i n : Nat) : Bytes := (data.drop i).take n

/-- `u32::from_le_bytes` of the first four bytes. -/
def readU32le (data : Bytes) : Nat :=
  data.getD 0 0 + data.getD 1 0 * 256 + data.getD 2 0 * 65536
    + data.getD 3 0 * 16777216

/-- Model of `lz4_flex::compress_prepend_size`: a 4-byte little-endian
uncompressed-length header followed by the compressed block.  The model
stores the payload verbatim (LZ4 block compression is lossless and external
to this repository; only the round-trip law is used by the claims). -/
def compressPrependSize (p : Bytes) : Bytes := u32le p.length ++ p

/-- Model of `lz4_flex::decompress_size_prepended`: reads the 4-byte header
and recovers the payload, failing on malformed input. -/
def decompressSizePrepended (b : Bytes) : Option Bytes :=
  if b.length < 4 then none
  else if (b.drop 4).length = readU32le b then some (b.drop 4) else none

/-- The `Message` enum of `src/network/mod.rs` (string fields as UTF-8 byte
lists, `from` spelled `frm` because `from` is reserved in Lean). -/
inductive Message where
  | chat (frm text : Bytes)
  | ping (seq : Nat)
  | pong (seq : Nat)
  | join (name : Bytes)
  | leave (name : Bytes)
  | callRequest (frm : Bytes)
  | callHangup (frm : Bytes)
  | callReject (frm : Bytes)
  | streamFrame (frm : Bytes) (lines : List Bytes)
  | videoFrame (frm : Bytes) (width height : Nat) (pixels : Bytes)
  | videoFrameFragment (frm : Bytes) (width height frame_id fragment_idx total_fragments : Nat)
      (data : Bytes)
  | discoveryAnnounce (name : Bytes) (port : Nat)
deriving DecidableEq

namespace Message

/-- `Message::to_bytes` of `src/network/mod.rs`. -/
def to_bytes : Message → Bytes
  | .chat frm text =>
      1 :: u8c frm.length :: (frm ++ u16be text.length ++ text)
  | .ping seq => 2 :: u32be seq
  | .pong seq => 3 :: u32be seq
  | .join name => 4 :: u8c name.length :: name
  | .leave name => 5 :: u8c name.length :: name
  | .callRequest frm => 7 :: u8c frm.length :: frm
  | .callHangup frm => 8 :: u8c frm.length :: frm
  | .callReject frm => 9 :: u8c frm.length :: frm
  | .streamFrame frm lines =>
      6 :: u8c frm.length :: (frm ++ u8c lines.length
        :: (lines.map (fun line => u16be line.length ++ line)).flatten)
  | .videoFrame frm width height pixels =>
      10 :: u8c frm.length :: (frm ++ u16be width ++ u16be height
        ++ u32be pixels.length
        ++ u32be (compressPrependSize pixels).length ++ compressPrependSize pixels)
  | .videoFrameFragment frm width height frame_id fragment_idx total_fragments data =>
      12 :: u8c frm.length :: (frm ++ u16be width ++ u16be height
        ++ u8c frame_id :: u8c fragment_idx :: u8c total_fragments
        :: (u32be data.length ++ data))
  | .discoveryAnnounce name port =>
      11 :: (u16be port ++ u8c name.length :: name)

/-- The `StreamFrame` line-reading loop of `Message::from_bytes`
(tag `0x06`), with the line count as structural fuel. -/
def parseLines (data : Bytes) : Nat → Nat → Option (List Bytes)
  | _, 0 => some []
  | offset, n + 1 =>
      if data.length < offset + 2 then none
      else
        let line_len := readU16 data offset
        if data.length < offset + 2 + line_len then none
        else
          match parseLines data (offset + 2 + line_len) n with
          | some rest => some (byteSlice data (offset + 2) line_len :: rest)
          | none => none

/-- `Message::from_bytes` of `src/network/mod.rs`, check for check. -/
def from_bytes (data : Bytes) : Option Message :=
  if data.length = 0 then none
  else
    let tag := data.getD 0 0
    if tag = 1 then
      -- Chat
      if data.length < 4 then none
      else
        let from_len := data.getD 1 0
        if data.length < 2 + from_len + 2 then none
        else
          let frm := byteSlice data 2 from_len
          let text_len := readU16 data (2 + from_len)
          if data.length < 4 + from_len + text_len then none
          else some (.chat frm (byteSlice data (4 + from_len) text_len))
    else if tag = 2 then
      -- Ping
      if data.length < 5 then none
      else some (.ping (readU32 data 1))
    else if tag = 3 then
      -- Pong
      if data.length < 5 then none
      else some (.pong (readU32 data 1))
    else if tag = 4 then
      -- Join
      if data.length < 2 then none
      else
        let name_len := data.getD 1 0
        if data.length < 2 + name_len then none
        else some (.join (byteSlice data 2 name_len))
    else if tag = 5 then
      -- Leave
      if data.length < 2 then none
      else
        let name_len := data.getD 1 0
        if data.length < 2 + name_len then none
        else some (.leave (byteSlice data 2 name_len))
    else if tag = 7 then
      -- CallRequest
      if data.length < 2 then none
      else
        let from_len := data.getD 1 0
        if data.length < 2 + from_len then none
        else some (.callRequest (byteSlice data 2 from_len))
    else if tag = 8 then
      -- CallHangup
      if data.length < 2 then none
      else
        let from_len := data.getD 1 0
        if data.length < 2 + from_len then none
        else some (.callHangup (byteSlice data 2 from_len))
    else if tag = 9 then
      -- CallReject
      if data.length < 2 then none
      else
        let from_len := data.getD 1 0
        if data.length < 2 + from_len then none
        else some (.callReject (byteSlice data 2 from_len))
    else if tag = 6 then
      -- StreamFrame
      if data.length < 2 then none
      else
        let from_len := data.getD 1 0
        if data.length < 2 + from_len + 1 then none
        else
          let frm := byteSlice data 2 from_len
          let num_lines := data.getD (2 + from_len) 0
          match parseLines data (2 + from_len + 1) num_lines with
          | some lines => some (.streamFrame frm lines)
          | none => none
    else if tag = 10 then
      -- VideoFrame (LZ4 compressed)
      if data.length < 2 then none
      else
        let from_len := data.getD 1 0
        if data.length < 2 + from_len + 12 then none
        else
          let frm := byteSlice data 2 from_len
          let width := readU16 data (2 + from_len)
          let height := readU16 data (2 + from_len + 2)
          -- Uncompressed size: read but unused (`_uncompressed_len` in the source)
          let _uncompressed_len := readU32 data (2 + from_len + 4)
          let compressed_len := readU32 data (2 + from_len + 8)
          if data.length < 2 + from_len + 12 + compressed_len then none
          else
            match decompressSizePrepended (byteSlice data (2 + from_len + 12) compressed_len) with
            | some pixels => some (.videoFrame frm width height pixels)
            | none => none
    else if tag = 11 then
      -- DiscoveryAnnounce
      if data.length < 4 then none
      else
        let port := readU16 data 1
        let name_len := data.getD 3 0
        if data.length < 4 + name_len then none
        else some (.discoveryAnnounce (byteSlice data 4 name_len) port)
    else if tag = 12 then
      -- VideoFrameFragment
      if data.length < 2 then none
      else
        let from_len := data.getD 1 0
        if data.length < 2 + from_len + 11 then none
        else
          let frm := byteSlice data 2 from_len
          let width := readU16 data (2 + from_len)
          let height := readU16 data (2 + from_len + 2)
          let frame_id := data.getD (2 + from_len + 4) 0
          let fragment_idx := data.getD (2 + from_len + 5) 0
          let total_fragments := data.getD (2 + from_len + 6) 0
          let data_len := readU32 data (2 + from_len + 7)
          if data.length < 2 + from_len + 11 + data_len then none
          else
            some (.videoFrameFragment frm width height frame_id fragment_idx
              total_fragments (byteSlice data (2 + from_len + 11) data_len))
    else none

/-- Well-formedness of a `Message` value: the numeric fields are within their
Rust integer types (`u32` seq, `u16` width/height/port, `u8` fragment
counters — automatic in Rust), and the variable-length fields fit the wire
format's length prefixes (NOT automatic in Rust: a `String` longer than 255
bytes is constructible and overflows the 1-byte length prefix). -/
def wf : Message → Prop
  | .chat frm text => frm.length ≤ 255 ∧ text.length < 65536
  | .ping seq => seq < 4294967296
  | .pong seq => seq < 4294967296
  | .join name => name.length ≤ 255
  | .leave name => name.length ≤ 255
  | .callRequest frm => frm.length ≤ 255
  | .callHangup frm => frm.length ≤ 255
  | .callReject frm => frm.length ≤ 255
  | .streamFrame frm lines =>
      frm.length ≤ 255 ∧ lines.length ≤ 255 ∧ ∀ l ∈ lines, l.length < 65536
  | .videoFrame frm width height pixels =>
      frm.length ≤ 255 ∧ width < 65536 ∧ height < 65536 ∧
        pixels.length + 4 < 4294967296
  | .videoFrameFragment frm width height frame_id fragment_idx total_fragments data =>
      frm.length ≤ 255 ∧ width < 65536 ∧ height < 65536 ∧ frame_id < 256 ∧
        fragment_idx < 256 ∧ total_fragments < 256 ∧ data.length < 4294967296
  | .discoveryAnnounce name port => name.length ≤ 255 ∧ port < 65536

instance : DecidablePred wf := by
  intro m
  cases m <;> simp only [wf] <;> infer_instance

end Message

/-- `LEAVE_GRACE_PERIOD`: 2 seconds, in model milliseconds. -/
def LEAVE_GRACE_PERIOD : Nat := 2000

/-- The fragment-buffer TTL used by `process_fragment`
(`Duration::from_secs(2)`), in model milliseconds. -/
def FRAGMENT_TTL : Nat := 2000

/-- `MAX_FRAGMENT_SIZE` of `send_video_frame`. -/
def MAX_FRAGMENT_SIZE : Nat := 1400

/-- The `Peer` struct (`SocketAddr` as an abstract `Nat`, `Instant` as
milliseconds). -/
structure Peer where
  name : Bytes
  addr : Nat
  last_seen : Nat
deriving DecidableEq

/-- The `FragmentBuffer` struct. -/
structure FragmentBuffer where
  frm : Bytes
  width : Nat
  height : Nat
  frame_id : Nat
  total_fragments : Nat
  fragments : List (Option Bytes)
  received_at : Nat
deriving DecidableEq

namespace FragmentBuffer

/-- `FragmentBuffer::new` (the `Instant::now()` call is the explicit `now`). -/
def new (frm : Bytes) (width height frame_id total_fragments now : Nat) : FragmentBuffer :=
  { frm := frm, width := width, height := height, frame_id := frame_id,
    total_fragments := total_fragments,
    fragments := List.replicate total_fragments none,
    received_at := now }

/-- `FragmentBuffer::add_fragment`. -/
def add_fragment (b : FragmentBuffer) (idx : Nat) (data : Bytes) : FragmentBuffer :=
  if idx < b.fragments.length then
    { b with fragments := b.fragments.set idx (some data) }
  else b

/-- `FragmentBuffer::is_complete`. -/
def is_complete (b : FragmentBuffer) : Bool :=
  b.fragments.all (·.isSome)

/-- `FragmentBuffer::reassemble`: concatenate the fragments in index order
and decompress. -/
def reassemble (b : FragmentBuffer) : Option Bytes :=
  if ¬ b.is_complete then none
  else decompressSizePrepended (b.fragments.filterMap id).flatten

end FragmentBuffer

/-- Key of the fragment-buffer map: `(peer_name, frame_id)`. -/
abbrev FragKey := Bytes × Nat

/-- The `HashMap<(String, u8), FragmentBuffer>` of `NetworkNode`, modelled as
a key-unique association list (hash-map iteration order is unspecified, so
list position carries no meaning). -/
abbrev FragMap := List (FragKey × FragmentBuffer)

/-- `HashMap::get` on the fragment-buffer map. -/
def lookupF (m : FragMap) (k : FragKey) : Option FragmentBuffer :=
  (m.find? (fun kv => kv.1 = k)).map (·.2)

/-- `HashMap::remove` on the fragment-buffer map. -/
def eraseF (m : FragMap) (k : FragKey) : FragMap :=
  m.filter (fun kv => kv.1 ≠ k)

/-- `HashMap::insert` on the fragment-buffer map (replaces any entry with
the same key). -/
def insertF (m : FragMap) (k : FragKey) (v : FragmentBuffer) : FragMap :=
  eraseF m k ++ [(k, v)]

/-- The `NetworkNode` struct (socket handle dropped; `name` is the node's
own display name). -/
structure NetworkNode where
  local_addr : Nat
  public_addr : Option Nat
  peers : List Peer
  known_addrs : List Nat
  recently_left : List (Nat × Nat)
  name : Bytes
  fragment_buffers : FragMap
deriving DecidableEq

/-- `HashSet::insert` on `known_addrs`. -/
def insertSet (s : List Nat) (a : Nat) : List Nat :=
  if a ∈ s then s else s ++ [a]

/-- `HashMap::insert` on `recently_left` (replaces any entry for the key). -/
def insertTime (m : List (Nat × Nat)) (a t : Nat) : List (Nat × Nat) :=
  m.filter (fun e => e.1 ≠ a) ++ [(a, t)]

/-- `iter_mut().find(pred)` followed by a mutation of the found element:
update the first matching entry in place. -/
def updateFirst (f : Peer → Bool) (g : Peer → Peer) : List Peer → List Peer
  | [] => []
  | p :: ps => if f p then g p :: ps else p :: updateFirst f g ps

namespace NetworkNode

/-- `NetworkNode::add_peer` (`std::time::Instant::now()` is `now`). -/
def add_peer (st : NetworkNode) (name : Bytes) (addr now : Nat) : NetworkNode :=
  if some addr = st.public_addr ∨ addr = st.local_addr then st
  else
    let st := { st with known_addrs := insertSet st.known_addrs addr }
    if st.peers.any (fun p => p.addr = addr) then
      { st with peers := (updateFirst (fun p => p.addr = addr)
          (fun p => { p with name := name, last_seen := now }) st.peers) }
    else
      { st with peers := st.peers ++ [{ name := name, addr := addr, last_seen := now }] }

/-- `NetworkNode::remove_peer`. -/
def remove_peer (st : NetworkNode) (addr now : Nat) : NetworkNode :=
  { st with peers := st.peers.filter (fun p => p.addr ≠ addr),
            recently_left := insertTime st.recently_left addr now }

/-- The `Vec::retain` pass of `prune_peers`: returns
`(pruned, remaining)` in traversal order. -/
def pruneGo (now timeout : Nat) : List Peer → List Peer × List Peer
  | [] => ([], [])
  | p :: ps =>
      let r := pruneGo now timeout ps
      if timeout ≤ now - p.last_seen then (p :: r.1, r.2) else (r.1, p :: r.2)

/-- `NetworkNode::prune_peers`: returns the new node and the pruned list. -/
def prune_peers (st : NetworkNode) (now timeout : Nat) : NetworkNode × List Peer :=
  let r := pruneGo now timeout st.peers
  ({ st with peers := r.2 }, r.1)

/-- `NetworkNode::has_peer`. -/
def has_peer (st : NetworkNode) (addr timeout now : Nat) : Bool :=
  st.peers.any (fun p => p.addr = addr ∧ now - p.last_seen < timeout)

/-- `NetworkNode::knows_peer`. -/
def knows_peer (st : NetworkNode) (addr : Nat) : Bool :=
  addr ∈ st.known_addrs

/-- `NetworkNode::recently_left` the method (named with a `_check` suffix to
avoid clashing with the field of the same name): evicts entries older than
the grace period, then tests membership. -/
def recently_left_check (st : NetworkNode) (addr now : Nat) : NetworkNode × Bool :=
  let rl := st.recently_left.filter (fun e => now - e.2 < LEAVE_GRACE_PERIOD)
  ({ st with recently_left := rl }, ((rl.find? (fun e => e.1 = addr)).isSome))

/-- `NetworkNode::touch_peer`. -/
def touch_peer (st : NetworkNode) (addr now : Nat) : NetworkNode :=
  { st with peers := (updateFirst (fun p => p.addr = addr)
      (fun p => { p with last_seen := now }) st.peers) }

/-- `NetworkNode::connect_to_peer`: sends a `Join` datagram (I/O, dropped
here) and adds the peer under the placeholder name `"unknown"`. -/
def connect_to_peer (st : NetworkNode) (addr now : Nat) : NetworkNode :=
  st.add_peer [117, 110, 107, 110, 111, 119, 110] addr now

end NetworkNode

/-- `slice::chunks(sz)`: the source only calls it with `sz = 1400 > 0`
(Rust panics on zero, the model returns `[]`). -/
def chunksOf (sz : Nat) (l : Bytes) : List Bytes :=
  if h : sz = 0 ∨ l = [] then []
  else l.take sz :: chunksOf sz (l.drop sz)
termination_by l.length
decreasing_by
  push_neg at h
  have h1 : 0 < sz := Nat.pos_of_ne_zero h.1
  have h2 : 0 < l.length := List.length_pos.mpr h.2
  simp only [List.length_drop]
  omega

namespace NetworkNode

/-- `NetworkNode::send_video_frame`, with the socket sends replaced by the
list of `VideoFrameFragment` messages sent, in send order; the oversize
failure is the `Except.error` case. -/
def send_video_frame (frm : Bytes) (width height : Nat) (pixels : Bytes)
    (frame_id : Nat) : Except String (List Message) :=
  let compressed := compressPrependSize pixels
  if compressed.length ≤ MAX_FRAGMENT_SIZE then
    .ok [.videoFrameFragment frm width height frame_id 0 1 compressed]
  else
    let total_fragments := (compressed.length + (MAX_FRAGMENT_SIZE - 1)) / MAX_FRAGMENT_SIZE
    if 255 < total_fragments then .error "Frame too large to fragment"
    else
      .ok ((chunksOf MAX_FRAGMENT_SIZE compressed).enum.map (fun ic =>
        .videoFrameFragment frm width height frame_id (u8c ic.1) (u8c total_fragments) ic.2))

/-- `NetworkNode::process_fragment` (`Instant::now()` is `now`): purge
expired buffers, get-or-create the buffer for `(from, frame_id)`, add the
fragment, and reassemble when complete. -/
def process_fragment (st : NetworkNode) (now : Nat) (frm : Bytes)
    (width height frame_id fragment_idx total_fragments : Nat) (data : Bytes) :
    NetworkNode × Option Message :=
  let bufs := st.fragment_buffers.filter
    (fun kv => now - kv.2.received_at < FRAGMENT_TTL)
  let key : FragKey := (frm, frame_id)
  let buffer0 :=
    match lookupF bufs key with
    | some b => b
    | none => FragmentBuffer.new frm width height frame_id total_fragments now
  let buffer := buffer0.add_fragment fragment_idx data
  if buffer.is_complete then
    match buffer.reassemble with
    | some pixels =>
        ({ st with fragment_buffers := eraseF bufs key },
          some (.videoFrame frm width height pixels))
    | none => ({ st with fragment_buffers := insertF bufs key buffer }, none)
  else ({ st with fragment_buffers := insertF bufs key buffer }, none)

end NetworkNode

/-- Feed one message to `process_fragment` if it is a fragment (the receive
loop dispatches `VideoFrameFragment` datagrams to `process_fragment`). -/
def feedOne (st : NetworkNode) (now : Nat) : Message → NetworkNode × Option Message
  | .videoFrameFragment frm width height frame_id fragment_idx total_fragments data =>
      st.process_fragment now frm width height frame_id fragment_idx total_fragments data
  | _ => (st, none)

/-- Feed a list of messages to `process_fragment` in order, collecting the
per-call results. -/
def feedAll (st : NetworkNode) (now : Nat) : List Message → NetworkNode × List (Option Message)
  | [] => (st, [])
  | m :: ms =>
      let r := feedOne st now m
      let rs := feedAll r.1 now ms
      (rs.1, r.2 :: rs.2)

/-! ### List access toolbox -/

theorem getD_append_left' (l r : Bytes) (i d : Nat) (h : i < l.length) :
    (l ++ r).getD i d = l.getD i d := by
  simp [List.getD_eq_getElem?_getD, List.getElem?_append, h]

theorem getD_append_right' (l r : Bytes) (i d : Nat) :
    (l ++ r).getD (l.length + i) d = r.getD i d := by
  simp only [List.getD_eq_getElem?_getD, List.getElem?_append]
  rw [if_neg (by omega)]
  congr 2
  omega

theorem getD_take' (l : Bytes) (k i d : Nat) (h : i < k) :
    (l.take k).getD i d = l.getD i d := by
  simp [List.getD_eq_getElem?_getD, List.getElem?_take, h]

theorem drop_append_add (l r : Bytes) (n : Nat) :
    (l ++ r).drop (l.length + n) = r.drop n := by
  induction l with
  | nil => simp
  | cons a t ih =>
      simp only [List.cons_append, List.length_cons]
      rw [show t.length + 1 + n = (t.length + n) + 1 by omega, List.drop_succ_cons, ih]

/-- Byte read at `2 + from.length + k` in a message of the common shape
`tag :: len :: (from ++ rest)` lands in `rest`. -/
theorem shape_getD (a b : Nat) (frm rest : Bytes) (i k d : Nat)
    (hi : i = 2 + frm.length + k) :
    (a :: b :: (frm ++ rest)).getD i d = rest.getD k d := by
  subst hi
  rw [show 2 + frm.length + k = frm.length + k + 1 + 1 by omega]
  rw [List.getD_cons_succ, List.getD_cons_succ, getD_append_right']

/-- Sub-range at `2 + from.length + k` in a message of the common shape. -/
theorem shape_slice (a b : Nat) (frm rest : Bytes) (i k n : Nat)
    (hi : i = 2 + frm.length + k) :
    byteSlice (a :: b :: (frm ++ rest)) i n = (rest.drop k).take n := by
  subst hi
  unfold byteSlice
  rw [show 2 + frm.length + k = frm.length + k + 1 + 1 by omega]
  rw [List.drop_succ_cons, List.drop_succ_cons, drop_append_add]

/-- The `from` field slice of a message of the common shape. -/
theorem shape_slice_from (a b : Nat) (frm rest : Bytes) :
    byteSlice (a :: b :: (frm ++ rest)) 2 frm.length = frm := by
  unfold byteSlice
  simp [List.take_left]

theorem shape_length (a b : Nat) (frm rest : Bytes) :
    (a :: b :: (frm ++ rest)).length = 2 + frm.length + rest.length := by
  simp
  omega

/-! ### Value round-trips of the byte-splitting helpers -/

theorem u16be_readU16 (n : Nat) (rest : Bytes) (h : n < 65536) :
    readU16 (u16be n ++ rest) 0 = n := by
  simp [readU16, u16be, List.getD_cons_zero, List.getD_cons_succ]
  omega

theorem u32be_readU32 (n : Nat) (rest : Bytes) (h : n < 4294967296) :
    readU32 (u32be n ++ rest) 0 = n := by
  simp [readU32, u32be, List.getD_cons_zero, List.getD_cons_succ]
  omega

theorem compress_decompress (p : Bytes) (h : p.length < 4294967296) :
    decompressSizePrepended (compressPrependSize p) = some p := by
  have hlen : (compressPrependSize p).length = 4 + p.length := by
    simp [compressPrependSize, u32le]; omega
  have hdrop : (compressPrependSize p).drop 4 = p := by
    simp [compressPrependSize, u32le]
  have hread : readU32le (compressPrependSize p) = p.length := by
    simp only [compressPrependSize, u32le, readU32le, List.cons_append,
      List.getD_cons_zero, List.getD_cons_succ]
    omega
  unfold decompressSizePrepended
  rw [hlen, hdrop, hread, if_neg (by omega), if_pos rfl]

namespace Message

/-! ### C1: encode/decode round-trip for well-formed messages -/

theorem roundtrip_ping (seq : Nat) (h : seq < 4294967296) :
    from_bytes (to_bytes (.ping seq)) = some (.ping seq) := by
  simp [from_bytes, to_bytes, u32be]
  simp [readU32, List.getD_cons_succ, List.getD_cons_zero]
  omega

theorem roundtrip_pong (seq : Nat) (h : seq < 4294967296) :
    from_bytes (to_bytes (.pong seq)) = some (.pong seq) := by
  simp [from_bytes, to_bytes, u32be]
  simp [readU32, List.getD_cons_succ, List.getD_cons_zero]
  omega

theorem roundtrip_join (name : Bytes) (h : name.length ≤ 255) :
    from_bytes (to_bytes (.join name)) = some (.join name) := by
  have hu : u8c name.length = name.length := Nat.mod_eq_of_lt (by omega)
  simp [from_bytes, to_bytes, hu, byteSlice]
  omega

theorem roundtrip_leave (name : Bytes) (h : name.length ≤ 255) :
    from_bytes (to_bytes (.leave name)) = some (.leave name) := by
  have hu : u8c name.length = name.length := Nat.mod_eq_of_lt (by omega)
  simp [from_bytes, to_bytes, hu, byteSlice]
  omega

theorem roundtrip_callRequest (frm : Bytes) (h : frm.length ≤ 255) :
    from_bytes (to_bytes (.callRequest frm)) = some (.callRequest frm) := by
  have hu : u8c frm.length = frm.length := Nat.mod_eq_of_lt (by omega)
  simp [from_bytes, to_bytes, hu, byteSlice]
  omega

theorem roundtrip_callHangup (frm : Bytes) (h : frm.length ≤ 255) :
    from_bytes (to_bytes (.callHangup frm)) = some (.callHangup frm) := by
  have hu : u8c frm.length = frm.length := Nat.mod_eq_of_lt (by omega)
  simp [from_bytes, to_bytes, hu, byteSlice]
  omega

theorem roundtrip_callReject (frm : Bytes) (h : frm.length ≤ 255) :
    from_bytes (to_bytes (.callReject frm)) = some (.callReject frm) := by
  have hu : u8c frm.length = frm.length := Nat.mod_eq_of_lt (by omega)
  simp [from_bytes, to_bytes, hu, byteSlice]
  omega

theorem roundtrip_discoveryAnnounce (name : Bytes) (port : Nat)
    (h : name.length ≤ 255) (hp : port < 65536) :
    from_bytes (to_bytes (.discoveryAnnounce name port)) = some (.discoveryAnnounce name port) := by
  have hu : u8c name.length = name.length := Nat.mod_eq_of_lt (by omega)
  simp [from_bytes, to_bytes, hu, u16be, byteSlice, readU16]
  constructor
  · omega
  · omega

theorem roundtrip_chat (frm text : Bytes) (hf : frm.length ≤ 255) (ht : text.length < 65536) :
    from_bytes (to_bytes (.chat frm text)) = some (.chat frm text) := by
  have hu : u8c frm.length = frm.length := Nat.mod_eq_of_lt (by omega)
  have hassoc : to_bytes (.chat frm text)
      = 1 :: frm.length :: (frm ++ (u16be text.length ++ text)) := by
    rw [to_bytes, List.append_assoc, hu]
  rw [hassoc]
  have hL : (1 :: frm.length :: (frm ++ (u16be text.length ++ text))).length
      = 4 + frm.length + text.length := by
    simp [u16be]; omega
  have hr16 : readU16 (1 :: frm.length :: (frm ++ (u16be text.length ++ text)))
      (2 + frm.length) = text.length := by
    unfold readU16
    rw [shape_getD 1 frm.length frm (u16be text.length ++ text) (2 + frm.length) 0 0 (by omega),
        shape_getD 1 frm.length frm (u16be text.length ++ text) (2 + frm.length + 1) 1 0 (by omega)]
    simp [u16be]
    omega
  have hs1 : byteSlice (1 :: frm.length :: (frm ++ (u16be text.length ++ text)))
      2 frm.length = frm := shape_slice_from _ _ _ _
  have hs2 : byteSlice (1 :: frm.length :: (frm ++ (u16be text.length ++ text)))
      (4 + frm.length) text.length = text := by
    rw [shape_slice 1 frm.length frm (u16be text.length ++ text)
      (4 + frm.length) 2 text.length (by omega)]
    simp [u16be]
  have hc0 : ¬(4 + frm.length + text.length = 0) := by omega
  have hc1 : ¬(4 + frm.length + text.length < 4) := by omega
  have hc2 : ¬(4 + frm.length + text.length < 2 + frm.length + 2) := by omega
  rw [from_bytes]
  simp only [hL, hr16, hs1, hs2, List.getD_cons_zero, List.getD_cons_succ,
    hc0, hc1, hc2, if_false, lt_irrefl]
  norm_num

/-- Generalization of `shape_getD` to an arbitrary parsed prefix. -/
theorem getD_at (pre X : Bytes) (i k d : Nat) (hi : i = pre.length + k) :
    (pre ++ X).getD i d = X.getD k d := by
  subst hi
  exact getD_append_right' pre X k d

/-- Generalization of `shape_slice` to an arbitrary parsed prefix. -/
theorem slice_at (pre X : Bytes) (i k n : Nat) (hi : i = pre.length + k) :
    byteSlice (pre ++ X) i n = (X.drop k).take n := by
  subst hi
  unfold byteSlice
  rw [drop_append_add]

theorem roundtrip_videoFrame (frm : Bytes) (w h : Nat) (pixels : Bytes)
    (hf : frm.length ≤ 255) (hw : w < 65536) (hh : h < 65536)
    (hp : pixels.length + 4 < 4294967296) :
    from_bytes (to_bytes (.videoFrame frm w h pixels)) = some (.videoFrame frm w h pixels) := by
  have hu : u8c frm.length = frm.length := Nat.mod_eq_of_lt (by omega)
  have hC : (compressPrependSize pixels).length = pixels.length + 4 := by
    simp [compressPrependSize, u32le]
  have hassoc : to_bytes (.videoFrame frm w h pixels)
      = 10 :: frm.length :: (frm ++ (u16be w ++ (u16be h ++ (u32be pixels.length
          ++ (u32be (compressPrependSize pixels).length ++ compressPrependSize pixels))))) := by
    rw [to_bytes, hu]
    simp [List.append_assoc]
  rw [hassoc]
  set C := compressPrependSize pixels with hCdef
  set rest := u16be w ++ (u16be h ++ (u32be pixels.length ++ (u32be C.length ++ C)))
    with hrest
  have hrestL : rest.length = 12 + C.length := by
    simp [hrest, u16be, u32be]; omega
  have hL : (10 :: frm.length :: (frm ++ rest)).length = 2 + frm.length + (12 + C.length) := by
    rw [shape_length, hrestL]
  have hw16 : readU16 (10 :: frm.length :: (frm ++ rest)) (2 + frm.length) = w := by
    unfold readU16
    rw [shape_getD 10 frm.length frm rest (2 + frm.length) 0 0 (by omega),
        shape_getD 10 frm.length frm rest (2 + frm.length + 1) 1 0 (by omega)]
    simp [hrest, u16be]
    omega
  have hh16 : readU16 (10 :: frm.length :: (frm ++ rest)) (2 + frm.length + 2) = h := by
    unfold readU16
    rw [shape_getD 10 frm.length frm rest (2 + frm.length + 2) 2 0 (by omega),
        shape_getD 10 frm.length frm rest (2 + frm.length + 2 + 1) 3 0 (by omega)]
    simp [hrest, u16be, u32be]
    omega
  have hc32 : readU32 (10 :: frm.length :: (frm ++ rest)) (2 + frm.length + 8) = C.length := by
    unfold readU32
    rw [shape_getD 10 frm.length frm rest (2 + frm.length + 8) 8 0 (by omega),
        shape_getD 10 frm.length frm rest (2 + frm.length + 8 + 1) 9 0 (by omega),
        shape_getD 10 frm.length frm rest (2 + frm.length + 8 + 2) 10 0 (by omega),
        shape_getD 10 frm.length frm rest (2 + frm.length + 8 + 3) 11 0 (by omega)]
    simp [hrest, u16be, u32be]
    omega
  have hs1 : byteSlice (10 :: frm.length :: (frm ++ rest)) 2 frm.length = frm :=
    shape_slice_from _ _ _ _
  have hdrop : rest.drop 12 = C := by
    simp only [hrest, u16be, u32be, List.cons_append]
    rfl
  have hs2 : byteSlice (10 :: frm.length :: (frm ++ rest))
      (2 + frm.length + 12) C.length = C := by
    rw [shape_slice 10 frm.length frm rest (2 + frm.length + 12) 12 C.length (by omega),
      hdrop, List.take_length]
  have hdec : decompressSizePrepended C = some pixels :=
    compress_decompress pixels (by omega)
  have hc0 : ¬((2 : Nat) + frm.length + (12 + C.length) = 0) := by omega
  have hc1 : ¬((2 : Nat) + frm.length + (12 + C.length) < 2) := by omega
  have hc2 : ¬((2 : Nat) + frm.length + (12 + C.length) < 2 + frm.length + 12) := by omega
  have hc3 : ¬((2 : Nat) + frm.length + (12 + C.length) < 2 + frm.length + 12 + C.length) := by
    omega
  rw [from_bytes]
  simp only [hL, hw16, hh16, hc32, hs1, hs2, hdec, List.getD_cons_zero, List.getD_cons_succ,
    hc0, hc1, hc2, hc3, if_false]
  norm_num

theorem roundtrip_videoFrameFragment (frm : Bytes) (w h fid idx tot : Nat) (data : Bytes)
    (hf : frm.length ≤ 255) (hw : w < 65536) (hh : h < 65536)
    (hid : fid < 256) (hidx : idx < 256) (htot : tot < 256)
    (hd : data.length < 4294967296) :
    from_bytes (to_bytes (.videoFrameFragment frm w h fid idx tot data))
      = some (.videoFrameFragment frm w h fid idx tot data) := by
  have hu : u8c frm.length = frm.length := Nat.mod_eq_of_lt (by omega)
  have hassoc : to_bytes (.videoFrameFragment frm w h fid idx tot data)
      = 12 :: frm.length :: (frm ++ (u16be w ++ (u16be h ++ (u8c fid :: u8c idx :: u8c tot
          :: (u32be data.length ++ data))))) := by
    rw [to_bytes, hu]
    simp [List.append_assoc]
  rw [hassoc]
  set rest := u16be w ++ (u16be h ++ (u8c fid :: u8c idx :: u8c tot
    :: (u32be data.length ++ data))) with hrest
  have hrestL : rest.length = 11 + data.length := by
    simp [hrest, u16be, u32be]; omega
  have hL : (12 :: frm.length :: (frm ++ rest)).length = 2 + frm.length + (11 + data.length) := by
    rw [shape_length, hrestL]
  have hw16 : readU16 (12 :: frm.length :: (frm ++ rest)) (2 + frm.length) = w := by
    unfold readU16
    rw [shape_getD 12 frm.length frm rest (2 + frm.length) 0 0 (by omega),
        shape_getD 12 frm.length frm rest (2 + frm.length + 1) 1 0 (by omega)]
    simp [hrest, u16be]
    omega
  have hh16 : readU16 (12 :: frm.length :: (frm ++ rest)) (2 + frm.length + 2) = h := by
    unfold readU16
    rw [shape_getD 12 frm.length frm rest (2 + frm.length + 2) 2 0 (by omega),
        shape_getD 12 frm.length frm rest (2 + frm.length + 2 + 1) 3 0 (by omega)]
    simp [hrest, u16be]
    omega
  have hfid : (12 :: frm.length :: (frm ++ rest)).getD (2 + frm.length + 4) 0 = fid := by
    rw [shape_getD 12 frm.length frm rest (2 + frm.length + 4) 4 0 (by omega)]
    simp [hrest, u16be, u8c]
    omega
  have hfidx : (12 :: frm.length :: (frm ++ rest)).getD (2 + frm.length + 5) 0 = idx := by
    rw [shape_getD 12 frm.length frm rest (2 + frm.length + 5) 5 0 (by omega)]
    simp [hrest, u16be, u8c]
    omega
  have hftot : (12 :: frm.length :: (frm ++ rest)).getD (2 + frm.length + 6) 0 = tot := by
    rw [shape_getD 12 frm.length frm rest (2 + frm.length + 6) 6 0 (by omega)]
    simp [hrest, u16be, u8c]
    omega
  have hd32 : readU32 (12 :: frm.length :: (frm ++ rest)) (2 + frm.length + 7) = data.length := by
    unfold readU32
    rw [shape_getD 12 frm.length frm rest (2 + frm.length + 7) 7 0 (by omega),
        shape_getD 12 frm.length frm rest (2 + frm.length + 7 + 1) 8 0 (by omega),
        shape_getD 12 frm.length frm rest (2 + frm.length + 7 + 2) 9 0 (by omega),
        shape_getD 12 frm.length frm rest (2 + frm.length + 7 + 3) 10 0 (by omega)]
    simp [hrest, u16be, u32be]
    omega
  have hs1 : byteSlice (12 :: frm.length :: (frm ++ rest)) 2 frm.length = frm :=
    shape_slice_from _ _ _ _
  have hdrop : rest.drop 11 = data := by
    simp only [hrest, u16be, u32be, List.cons_append]
    rfl
  have hs2 : byteSlice (12 :: frm.length :: (frm ++ rest))
      (2 + frm.length + 11) data.length = data := by
    rw [shape_slice 12 frm.length frm rest (2 + frm.length + 11) 11 data.length (by omega),
      hdrop, List.take_length]
  have hc0 : ¬((2 : Nat) + frm.length + (11 + data.length) = 0) := by omega
  have hc1 : ¬((2 : Nat) + frm.length + (11 + data.length) < 2) := by omega
  have hc2 : ¬((2 : Nat) + frm.length + (11 + data.length) < 2 + frm.length + 11) := by omega
  have hc3 : ¬((2 : Nat) + frm.length + (11 + data.length)
      < 2 + frm.length + 11 + data.length) := by omega
  rw [from_bytes]
  simp only [hL, hw16, hh16, hfid, hfidx, hftot, hd32, hs1, hs2, List.getD_cons_zero,
    List.getD_cons_succ, hc0, hc1, hc2, hc3, if_false]
  norm_num

/-- One encoded line block of a `StreamFrame`. -/
def encLine (line : Bytes) : Bytes := u16be line.length ++ line

/-- The encoded tail of a `StreamFrame`: the concatenated line blocks. -/
def encLines (lines : List Bytes) : Bytes := (lines.map encLine).flatten

/-- `parseLines` recovers the lines it is pointed at. -/
theorem parseLines_encode (lines : List Bytes) (pre : Bytes)
    (hwf : ∀ l ∈ lines, l.length < 65536) :
    parseLines (pre ++ encLines lines) pre.length lines.length = some lines := by
  induction lines generalizing pre with
  | nil => simp [parseLines]
  | cons l ls ih =>
      have hl : l.length < 65536 := hwf l (by simp)
      have hflat : pre ++ encLines (l :: ls)
          = pre ++ (u16be l.length ++ (l ++ encLines ls)) := by
        simp [encLines, encLine]
      rw [hflat]
      have hLen : (pre ++ (u16be l.length ++ (l ++ encLines ls))).length
          = pre.length + 2 + l.length + (encLines ls).length := by
        simp [u16be]
        omega
      have hb0 : (pre ++ (u16be l.length ++ (l ++ encLines ls))).getD pre.length 0
          = l.length / 256 % 256 := by
        rw [getD_at pre _ pre.length 0 0 (by omega)]
        simp [u16be]
      have hb1 : (pre ++ (u16be l.length ++ (l ++ encLines ls))).getD (pre.length + 1) 0
          = l.length % 256 := by
        rw [getD_at pre _ (pre.length + 1) 1 0 (by omega)]
        simp [u16be]
      have hr16 : readU16 (pre ++ (u16be l.length ++ (l ++ encLines ls))) pre.length
          = l.length := by
        unfold readU16
        rw [hb0, hb1]
        omega
      have hre : pre ++ (u16be l.length ++ (l ++ encLines ls))
          = (pre ++ u16be l.length) ++ (l ++ encLines ls) := by
        simp [List.append_assoc]
      have hsl : byteSlice (pre ++ (u16be l.length ++ (l ++ encLines ls)))
          (pre.length + 2) l.length = l := by
        rw [hre, slice_at (pre ++ u16be l.length) (l ++ encLines ls)
          (pre.length + 2) 0 l.length (by simp [u16be])]
        simp [List.take_left]
      have hrec : parseLines (pre ++ (u16be l.length ++ (l ++ encLines ls)))
          (pre.length + 2 + l.length) ls.length = some ls := by
        have hpre' : ((pre ++ u16be l.length) ++ l).length = pre.length + 2 + l.length := by
          simp [u16be]
          omega
        have h2 : pre ++ (u16be l.length ++ (l ++ encLines ls))
            = ((pre ++ u16be l.length) ++ l) ++ encLines ls := by
          simp [List.append_assoc]
        rw [h2, ← hpre']
        exact ih ((pre ++ u16be l.length) ++ l) (fun x hx => hwf x (by simp [hx]))
      simp only [List.length_cons]
      rw [parseLines]
      rw [if_neg (by omega), hr16, if_neg (by omega), hrec, hsl]

theorem roundtrip_streamFrame (frm : Bytes) (lines : List Bytes)
    (hf : frm.length ≤ 255) (hn : lines.length ≤ 255)
    (hwf : ∀ l ∈ lines, l.length < 65536) :
    from_bytes (to_bytes (.streamFrame frm lines)) = some (.streamFrame frm lines) := by
  have hu : u8c frm.length = frm.length := Nat.mod_eq_of_lt (by omega)
  have huL : u8c lines.length = lines.length := Nat.mod_eq_of_lt (by omega)
  have hassoc : to_bytes (.streamFrame frm lines)
      = 6 :: frm.length :: (frm ++ (lines.length :: encLines lines)) := by
    rw [to_bytes, hu, huL]
    simp [encLines, encLine]
    rfl
  rw [hassoc]
  set B := encLines lines with hB
  have hL : (6 :: frm.length :: (frm ++ (lines.length :: B))).length
      = 2 + frm.length + (1 + B.length) := by
    rw [shape_length]
    simp
    omega
  have hnum : (6 :: frm.length :: (frm ++ (lines.length :: B))).getD (2 + frm.length) 0
      = lines.length := by
    rw [shape_getD 6 frm.length frm _ (2 + frm.length) 0 0 (by omega)]
    simp
  have hpl : parseLines (6 :: frm.length :: (frm ++ (lines.length :: B)))
      (2 + frm.length + 1) lines.length = some lines := by
    have hsplit : 6 :: frm.length :: (frm ++ (lines.length :: B))
        = (6 :: frm.length :: (frm ++ [lines.length])) ++ B := by
      simp
    have hpreL : (6 :: frm.length :: (frm ++ [lines.length])).length
        = 2 + frm.length + 1 := by
      simp
      omega
    rw [hsplit, ← hpreL, hB]
    exact parseLines_encode lines _ hwf
  have hs1 : byteSlice (6 :: frm.length :: (frm ++ (lines.length :: B))) 2 frm.length = frm :=
    shape_slice_from _ _ _ _
  have hc0 : ¬((2 : Nat) + frm.length + (1 + B.length) = 0) := by omega
  have hc1 : ¬((2 : Nat) + frm.length + (1 + B.length) < 2) := by omega
  have hc2 : ¬((2 : Nat) + frm.length + (1 + B.length) < 2 + frm.length + 1) := by omega
  rw [from_bytes]
  simp only [hL, hnum, hpl, hs1, List.getD_cons_zero, List.getD_cons_succ,
    hc0, hc1, hc2, if_false]
  norm_num

/-! ### C2: truncation of a valid encoding always decodes to `none` -/

theorem trunc_ping (seq : Nat) (k : Nat) (hk : k < (to_bytes (.ping seq)).length) :
    from_bytes ((to_bytes (.ping seq)).take k) = none := by
  have henL : (to_bytes (.ping seq)).length = 5 := by simp [to_bytes, u32be]
  rw [henL] at hk
  have bL : ((to_bytes (.ping seq)).take k).length = k := by
    simp [List.length_take, henL]
    omega
  by_cases hk0 : k = 0
  · simp [hk0, from_bytes]
  · have htag : ((to_bytes (.ping seq)).take k).getD 0 0 = 2 := by
      rw [getD_take' _ _ _ _ (by omega)]
      rfl
    rw [from_bytes]
    simp only [bL, htag]
    norm_num [hk0, hk]

theorem trunc_pong (seq : Nat) (k : Nat) (hk : k < (to_bytes (.pong seq)).length) :
    from_bytes ((to_bytes (.pong seq)).take k) = none := by
  have henL : (to_bytes (.pong seq)).length = 5 := by simp [to_bytes, u32be]
  rw [henL] at hk
  have bL : ((to_bytes (.pong seq)).take k).length = k := by
    simp [List.length_take, henL]
    omega
  by_cases hk0 : k = 0
  · simp [hk0, from_bytes]
  · have htag : ((to_bytes (.pong seq)).take k).getD 0 0 = 3 := by
      rw [getD_take' _ _ _ _ (by omega)]
      rfl
    rw [from_bytes]
    simp only [bL, htag]
    norm_num [hk0, hk]

theorem trunc_join (name : Bytes) (h : name.length ≤ 255) (k : Nat)
    (hk : k < (to_bytes (.join name)).length) :
    from_bytes ((to_bytes (.join name)).take k) = none := by
  have hu : u8c name.length = name.length := Nat.mod_eq_of_lt (by omega)
  have hassoc : to_bytes (.join name) = 4 :: name.length :: name := by rw [to_bytes, hu]
  rw [hassoc] at hk ⊢
  have henL : (4 :: name.length :: name).length = 2 + name.length := by
    simp
    omega
  rw [henL] at hk
  have bL : ((4 :: name.length :: name).take k).length = k := by
    simp [List.length_take]
    omega
  by_cases hk0 : k = 0
  · simp [hk0, from_bytes]
  · have htag : ((4 :: name.length :: name).take k).getD 0 0 = 4 := by
      rw [getD_take' _ _ _ _ (by omega)]
      rfl
    by_cases h2 : k < 2
    · rw [from_bytes]
      simp only [bL, htag]
      norm_num [hk0, h2]
    · have hfl : ((4 :: name.length :: name).take k).getD 1 0 = name.length := by
        rw [getD_take' _ _ _ _ (by omega)]
        rfl
      rw [from_bytes]
      simp only [bL, htag, hfl]
      norm_num [hk0, h2, hk]

theorem trunc_leave (name : Bytes) (h : name.length ≤ 255) (k : Nat)
    (hk : k < (to_bytes (.leave name)).length) :
    from_bytes ((to_bytes (.leave name)).take k) = none := by
  have hu : u8c name.length = name.length := Nat.mod_eq_of_lt (by omega)
  have hassoc : to_bytes (.leave name) = 5 :: name.length :: name := by rw [to_bytes, hu]
  rw [hassoc] at hk ⊢
  have henL : (5 :: name.length :: name).length = 2 + name.length := by
    simp
    omega
  rw [henL] at hk
  have bL : ((5 :: name.length :: name).take k).length = k := by
    simp [List.length_take]
    omega
  by_cases hk0 : k = 0
  · simp [hk0, from_bytes]
  · have htag : ((5 :: name.length :: name).take k).getD 0 0 = 5 := by
      rw [getD_take' _ _ _ _ (by omega)]
      rfl
    by_cases h2 : k < 2
    · rw [from_bytes]
      simp only [bL, htag]
      norm_num [hk0, h2]
    · have hfl : ((5 :: name.length :: name).take k).getD 1 0 = name.length := by
        rw [getD_take' _ _ _ _ (by omega)]
        rfl
      rw [from_bytes]
      simp only [bL, htag, hfl]
      norm_num [hk0, h2, hk]

theorem trunc_callRequest (frm : Bytes) (h : frm.length ≤ 255) (k : Nat)
    (hk : k < (to_bytes (.callRequest frm)).length) :
    from_bytes ((to_bytes (.callRequest frm)).take k) = none := by
  have hu : u8c frm.length = frm.length := Nat.mod_eq_of_lt (by omega)
  have hassoc : to_bytes (.callRequest frm) = 7 :: frm.length :: frm := by rw [to_bytes, hu]
  rw [hassoc] at hk ⊢
  have henL : (7 :: frm.length :: frm).length = 2 + frm.length := by
    simp
    omega
  rw [henL] at hk
  have bL : ((7 :: frm.length :: frm).take k).length = k := by
    simp [List.length_take]
    omega
  by_cases hk0 : k = 0
  · simp [hk0, from_bytes]
  · have htag : ((7 :: frm.length :: frm).take k).getD 0 0 = 7 := by
      rw [getD_take' _ _ _ _ (by omega)]
      rfl
    by_cases h2 : k < 2
    · rw [from_bytes]
      simp only [bL, htag]
      norm_num [hk0, h2]
    · have hfl : ((7 :: frm.length :: frm).take k).getD 1 0 = frm.length := by
        rw [getD_take' _ _ _ _ (by omega)]
        rfl
      rw [from_bytes]
      simp only [bL, htag, hfl]
      norm_num [hk0, h2, hk]

theorem trunc_callHangup (frm : Bytes) (h : frm.length ≤ 255) (k : Nat)
    (hk : k < (to_bytes (.callHangup frm)).length) :
    from_bytes ((to_bytes (.callHangup frm)).take k) = none := by
  have hu : u8c frm.length = frm.length := Nat.mod_eq_of_lt (by omega)
  have hassoc : to_bytes (.callHangup frm) = 8 :: frm.length :: frm := by rw [to_bytes, hu]
  rw [hassoc] at hk ⊢
  have henL : (8 :: frm.length :: frm).length = 2 + frm.length := by
    simp
    omega
  rw [henL] at hk
  have bL : ((8 :: frm.length :: frm).take k).length = k := by
    simp [List.length_take]
    omega
  by_cases hk0 : k = 0
  · simp [hk0, from_bytes]
  · have htag : ((8 :: frm.length :: frm).take k).getD 0 0 = 8 := by
      rw [getD_take' _ _ _ _ (by omega)]
      rfl
    by_cases h2 : k < 2
    · rw [from_bytes]
      simp only [bL, htag]
      norm_num [hk0, h2]
    · have hfl : ((8 :: frm.length :: frm).take k).getD 1 0 = frm.length := by
        rw [getD_take' _ _ _ _ (by omega)]
        rfl
      rw [from_bytes]
      simp only [bL, htag, hfl]
      norm_num [hk0, h2, hk]

theorem trunc_callReject (frm : Bytes) (h : frm.length ≤ 255) (k : Nat)
    (hk : k < (to_bytes (.callReject frm)).length) :
    from_bytes ((to_bytes (.callReject frm)).take k) = none := by
  have hu : u8c frm.length = frm.length := Nat.mod_eq_of_lt (by omega)
  have hassoc : to_bytes (.callReject frm) = 9 :: frm.length :: frm := by rw [to_bytes, hu]
  rw [hassoc] at hk ⊢
  have henL : (9 :: frm.length :: frm).length = 2 + frm.length := by
    simp
    omega
  rw [henL] at hk
  have bL : ((9 :: frm.length :: frm).take k).length = k := by
    simp [List.length_take]
    omega
  by_cases hk0 : k = 0
  · simp [hk0, from_bytes]
  · have htag : ((9 :: frm.length :: frm).take k).getD 0 0 = 9 := by
      rw [getD_take' _ _ _ _ (by omega)]
      rfl
    by_cases h2 : k < 2
    · rw [from_bytes]
      simp only [bL, htag]
      norm_num [hk0, h2]
    · have hfl : ((9 :: frm.length :: frm).take k).getD 1 0 = frm.length := by
        rw [getD_take' _ _ _ _ (by omega)]
        rfl
      rw [from_bytes]
      simp only [bL, htag, hfl]
      norm_num [hk0, h2, hk]

theorem trunc_discoveryAnnounce (name : Bytes) (port : Nat) (h : name.length ≤ 255)
    (k : Nat) (hk : k < (to_bytes (.discoveryAnnounce name port)).length) :
    from_bytes ((to_bytes (.discoveryAnnounce name port)).take k) = none := by
  have hu : u8c name.length = name.length := Nat.mod_eq_of_lt (by omega)
  have hassoc : to_bytes (.discoveryAnnounce name port)
      = 11 :: port / 256 % 256 :: port % 256 :: name.length :: name := by
    rw [to_bytes, hu]
    simp [u16be]
  rw [hassoc] at hk ⊢
  have henL : (11 :: port / 256 % 256 :: port % 256 :: name.length :: name).length
      = 4 + name.length := by
    simp
    omega
  rw [henL] at hk
  have bL : ((11 :: port / 256 % 256 :: port % 256 :: name.length :: name).take k).length
      = k := by
    simp [List.length_take]
    omega
  by_cases hk0 : k = 0
  · simp [hk0, from_bytes]
  · have htag : ((11 :: port / 256 % 256 :: port % 256 :: name.length :: name).take k).getD 0 0
        = 11 := by
      rw [getD_take' _ _ _ _ (by omega)]
      rfl
    by_cases h4 : k < 4
    · rw [from_bytes]
      simp only [bL, htag]
      norm_num [hk0, h4]
    · have hfl : ((11 :: port / 256 % 256 :: port % 256 :: name.length :: name).take k).getD 3 0
          = name.length := by
        rw [getD_take' _ _ _ _ (by omega)]
        rfl
      rw [from_bytes]
      simp only [bL, htag, hfl]
      norm_num [hk0, h4, hk]

theorem trunc_chat (frm text : Bytes) (hf : frm.length ≤ 255) (ht : text.length < 65536)
    (k : Nat) (hk : k < (to_bytes (.chat frm text)).length) :
    from_bytes ((to_bytes (.chat frm text)).take k) = none := by
  have hu : u8c frm.length = frm.length := Nat.mod_eq_of_lt (by omega)
  have hassoc : to_bytes (.chat frm text)
      = 1 :: frm.length :: (frm ++ (u16be text.length ++ text)) := by
    rw [to_bytes, List.append_assoc, hu]
  rw [hassoc] at hk ⊢
  set en := 1 :: frm.length :: (frm ++ (u16be text.length ++ text)) with hen
  have henL : en.length = 4 + frm.length + text.length := by
    simp [hen, u16be]
    omega
  rw [henL] at hk
  have bL : (en.take k).length = k := by
    simp [List.length_take, henL]
    omega
  by_cases hk0 : k = 0
  · simp [hk0, from_bytes]
  · have htag : (en.take k).getD 0 0 = 1 := by
      rw [getD_take' _ _ _ _ (by omega)]
      rfl
    by_cases h4 : k < 4
    · rw [from_bytes]
      simp only [bL, htag]
      norm_num [hk0, h4]
    · have hfl : (en.take k).getD 1 0 = frm.length := by
        rw [getD_take' _ _ _ _ (by omega)]
        rfl
      by_cases h5 : k < 2 + frm.length + 2
      · rw [from_bytes]
        simp only [bL, htag, hfl]
        norm_num [hk0, h4, h5]
      · have hr16 : readU16 (en.take k) (2 + frm.length) = text.length := by
          unfold readU16
          rw [getD_take' _ _ _ _ (by omega), getD_take' _ _ _ _ (by omega), hen]
          rw [shape_getD 1 frm.length frm (u16be text.length ++ text)
                (2 + frm.length) 0 0 (by omega),
              shape_getD 1 frm.length frm (u16be text.length ++ text)
                (2 + frm.length + 1) 1 0 (by omega)]
          simp [u16be]
          omega
        have hfire : k < 4 + frm.length + text.length := hk
        rw [from_bytes]
        simp only [bL, htag, hfl, hr16]
        norm_num [hk0, h4, h5, hfire]

theorem trunc_videoFrame (frm : Bytes) (w h : Nat) (pixels : Bytes)
    (hf : frm.length ≤ 255) (hp : pixels.length + 4 < 4294967296)
    (k : Nat) (hk : k < (to_bytes (.videoFrame frm w h pixels)).length) :
    from_bytes ((to_bytes (.videoFrame frm w h pixels)).take k) = none := by
  have hu : u8c frm.length = frm.length := Nat.mod_eq_of_lt (by omega)
  have hC : (compressPrependSize pixels).length = pixels.length + 4 := by
    simp [compressPrependSize, u32le]
  have hassoc : to_bytes (.videoFrame frm w h pixels)
      = 10 :: frm.length :: (frm ++ (u16be w ++ (u16be h ++ (u32be pixels.length
          ++ (u32be (compressPrependSize pixels).length ++ compressPrependSize pixels))))) := by
    rw [to_bytes, hu]
    simp [List.append_assoc]
  rw [hassoc] at hk ⊢
  set C := compressPrependSize pixels with hCdef
  set rest := u16be w ++ (u16be h ++ (u32be pixels.length ++ (u32be C.length ++ C)))
    with hrest
  set en := 10 :: frm.length :: (frm ++ rest) with hen
  have hrestL : rest.length = 12 + C.length := by
    simp [hrest, u16be, u32be]
    omega
  have henL : en.length = 2 + frm.length + (12 + C.length) := by
    rw [hen, shape_length, hrestL]
  rw [henL] at hk
  have bL : (en.take k).length = k := by
    simp [List.length_take, henL]
    omega
  by_cases hk0 : k = 0
  · simp [hk0, from_bytes]
  · have htag : (en.take k).getD 0 0 = 10 := by
      rw [getD_take' _ _ _ _ (by omega)]
      rfl
    by_cases h2 : k < 2
    · rw [from_bytes]
      simp only [bL, htag]
      norm_num [hk0, h2]
    · have hfl : (en.take k).getD 1 0 = frm.length := by
        rw [getD_take' _ _ _ _ (by omega)]
        rfl
      by_cases h3 : k < 2 + frm.length + 12
      · rw [from_bytes]
        simp only [bL, htag, hfl]
        norm_num [hk0, h2, h3]
      · have hc32 : readU32 (en.take k) (2 + frm.length + 8) = C.length := by
          unfold readU32
          rw [getD_take' _ _ _ _ (by omega), getD_take' _ _ _ _ (by omega),
              getD_take' _ _ _ _ (by omega), getD_take' _ _ _ _ (by omega), hen]
          rw [shape_getD 10 frm.length frm rest (2 + frm.length + 8) 8 0 (by omega),
              shape_getD 10 frm.length frm rest (2 + frm.length + 8 + 1) 9 0 (by omega),
              shape_getD 10 frm.length frm rest (2 + frm.length + 8 + 2) 10 0 (by omega),
              shape_getD 10 frm.length frm rest (2 + frm.length + 8 + 3) 11 0 (by omega)]
          simp [hrest, u16be, u32be]
          omega
        have hfire : k < 2 + frm.length + 12 + C.length := by omega
        rw [from_bytes]
        simp only [bL, htag, hfl, hc32]
        norm_num [hk0, h2, h3, hfire]

theorem trunc_videoFrameFragment (frm : Bytes) (w h fid idx tot : Nat) (data : Bytes)
    (hf : frm.length ≤ 255) (hd : data.length < 4294967296)
    (k : Nat) (hk : k < (to_bytes (.videoFrameFragment frm w h fid idx tot data)).length) :
    from_bytes ((to_bytes (.videoFrameFragment frm w h fid idx tot data)).take k) = none := by
  have hu : u8c frm.length = frm.length := Nat.mod_eq_of_lt (by omega)
  have hassoc : to_bytes (.videoFrameFragment frm w h fid idx tot data)
      = 12 :: frm.length :: (frm ++ (u16be w ++ (u16be h ++ (u8c fid :: u8c idx :: u8c tot
          :: (u32be data.length ++ data))))) := by
    rw [to_bytes, hu]
    simp [List.append_assoc]
  rw [hassoc] at hk ⊢
  set rest := u16be w ++ (u16be h ++ (u8c fid :: u8c idx :: u8c tot
    :: (u32be data.length ++ data))) with hrest
  set en := 12 :: frm.length :: (frm ++ rest) with hen
  have hrestL : rest.length = 11 + data.length := by
    simp [hrest, u16be, u32be]
    omega
  have henL : en.length = 2 + frm.length + (11 + data.length) := by
    rw [hen, shape_length, hrestL]
  rw [henL] at hk
  have bL : (en.take k).length = k := by
    simp [List.length_take, henL]
    omega
  by_cases hk0 : k = 0
  · simp [hk0, from_bytes]
  · have htag : (en.take k).getD 0 0 = 12 := by
      rw [getD_take' _ _ _ _ (by omega)]
      rfl
    by_cases h2 : k < 2
    · rw [from_bytes]
      simp only [bL, htag]
      norm_num [hk0, h2]
    · have hfl : (en.take k).getD 1 0 = frm.length := by
        rw [getD_take' _ _ _ _ (by omega)]
        rfl
      by_cases h3 : k < 2 + frm.length + 11
      · rw [from_bytes]
        simp only [bL, htag, hfl]
        norm_num [hk0, h2, h3]
      · have hd32 : readU32 (en.take k) (2 + frm.length + 7) = data.length := by
          unfold readU32
          rw [getD_take' _ _ _ _ (by omega), getD_take' _ _ _ _ (by omega),
              getD_take' _ _ _ _ (by omega), getD_take' _ _ _ _ (by omega), hen]
          rw [shape_getD 12 frm.length frm rest (2 + frm.length + 7) 7 0 (by omega),
              shape_getD 12 frm.length frm rest (2 + frm.length + 7 + 1) 8 0 (by omega),
              shape_getD 12 frm.length frm rest (2 + frm.length + 7 + 2) 9 0 (by omega),
              shape_getD 12 frm.length frm rest (2 + frm.length + 7 + 3) 10 0 (by omega)]
          simp [hrest, u16be, u32be]
          omega
        have hfire : k < 2 + frm.length + 11 + data.length := by omega
        rw [from_bytes]
        simp only [bL, htag, hfl, hd32]
        norm_num [hk0, h2, h3, hfire]

/-- Truncating the input strictly inside the encoded lines makes
`parseLines` fail. -/
theorem parseLines_trunc (lines : List Bytes) (pre : Bytes) (k : Nat)
    (hwf : ∀ l ∈ lines, l.length < 65536)
    (hpre : pre.length ≤ k) (hk : k < (pre ++ encLines lines).length) :
    parseLines ((pre ++ encLines lines).take k) pre.length lines.length = none := by
  induction lines generalizing pre with
  | nil =>
      simp [encLines] at hk
      omega
  | cons l ls ih =>
      have hl : l.length < 65536 := hwf l (by simp)
      have hflat : pre ++ encLines (l :: ls) = pre ++ (u16be l.length ++ (l ++ encLines ls)) := by
        simp [encLines, encLine]
      rw [hflat] at hk ⊢
      set data := pre ++ (u16be l.length ++ (l ++ encLines ls)) with hdata
      have hdL : data.length = pre.length + 2 + l.length + (encLines ls).length := by
        simp [hdata, u16be]
        omega
      rw [hdL] at hk
      have bL : (data.take k).length = k := by
        simp [List.length_take, hdL]
        omega
      simp only [List.length_cons]
      rw [parseLines]
      simp only [bL]
      by_cases hA : k < pre.length + 2
      · rw [if_pos hA]
      · rw [if_neg hA]
        have hll : readU16 (data.take k) pre.length = l.length := by
          unfold readU16
          rw [getD_take' _ _ _ _ (by omega), getD_take' _ _ _ _ (by omega), hdata]
          rw [getD_at pre _ pre.length 0 0 (by omega),
              getD_at pre _ (pre.length + 1) 1 0 (by omega)]
          simp [u16be]
          omega
        rw [hll]
        by_cases hB : k < pre.length + 2 + l.length
        · rw [if_pos hB]
        · rw [if_neg hB]
          have hrec : parseLines (data.take k) (pre.length + 2 + l.length) ls.length = none := by
            have hre : data = ((pre ++ u16be l.length) ++ l) ++ encLines ls := by
              simp [hdata, List.append_assoc]
            have hpreL : ((pre ++ u16be l.length) ++ l).length = pre.length + 2 + l.length := by
              simp [u16be]
              omega
            rw [hre, ← hpreL]
            refine ih ((pre ++ u16be l.length) ++ l) (fun x hx => hwf x (by simp [hx])) ?_ ?_
            · omega
            · simp [u16be]
              omega
          rw [hrec]

theorem trunc_streamFrame (frm : Bytes) (lines : List Bytes)
    (hf : frm.length ≤ 255) (hn : lines.length ≤ 255)
    (hwf : ∀ l ∈ lines, l.length < 65536)
    (k : Nat) (hk : k < (to_bytes (.streamFrame frm lines)).length) :
    from_bytes ((to_bytes (.streamFrame frm lines)).take k) = none := by
  have hu : u8c frm.length = frm.length := Nat.mod_eq_of_lt (by omega)
  have huL : u8c lines.length = lines.length := Nat.mod_eq_of_lt (by omega)
  have hassoc : to_bytes (.streamFrame frm lines)
      = 6 :: frm.length :: (frm ++ (lines.length :: encLines lines)) := by
    rw [to_bytes, hu, huL]
    simp [encLines, encLine]
    rfl
  rw [hassoc] at hk ⊢
  set B := encLines lines with hB
  set en := 6 :: frm.length :: (frm ++ (lines.length :: B)) with hen
  have henL : en.length = 2 + frm.length + (1 + B.length) := by
    rw [hen, shape_length]
    simp
    omega
  rw [henL] at hk
  have bL : (en.take k).length = k := by
    simp [List.length_take, henL]
    omega
  by_cases hk0 : k = 0
  · simp [hk0, from_bytes]
  · have htag : (en.take k).getD 0 0 = 6 := by
      rw [getD_take' _ _ _ _ (by omega)]
      rfl
    by_cases h2 : k < 2
    · rw [from_bytes]
      simp only [bL, htag]
      norm_num [hk0, h2]
    · have hfl : (en.take k).getD 1 0 = frm.length := by
        rw [getD_take' _ _ _ _ (by omega)]
        rfl
      by_cases h3 : k < 2 + frm.length + 1
      · rw [from_bytes]
        simp only [bL, htag, hfl]
        norm_num [hk0, h2, h3]
      · have hnum : (en.take k).getD (2 + frm.length) 0 = lines.length := by
          rw [getD_take' _ _ _ _ (by omega), hen]
          rw [shape_getD 6 frm.length frm (lines.length :: B) (2 + frm.length) 0 0 (by omega)]
          rfl
        have hparse : parseLines (en.take k) (2 + frm.length + 1) lines.length = none := by
          have hsplit : en = (6 :: frm.length :: (frm ++ [lines.length])) ++ B := by
            simp [hen]
          have hpreL : (6 :: frm.length :: (frm ++ [lines.length])).length
              = 2 + frm.length + 1 := by
            simp
            omega
          rw [hB] at hk
          rw [hsplit, ← hpreL, hB]
          refine parseLines_trunc lines _ k hwf ?_ ?_
          · omega
          · have : ((6 :: frm.length :: (frm ++ [lines.length])) ++ encLines lines).length
                = 2 + frm.length + (1 + (encLines lines).length) := by
              simp
              omega
            omega
        rw [from_bytes]
        simp only [bL, htag, hfl, hnum, hparse]
        norm_num [hk0, h2, h3]

set_option maxRecDepth 4096 in
/-- C1 counterexample: the claim quantifies over arbitrary field contents,
but `to_bytes` writes `from.len() as u8`, so a 256-byte `from` string (a
perfectly constructible Rust `String`) encodes a length byte of `0` and the
resulting bytes no longer decode to the original message — decode returns
`None` here, not `Some` of an equal value. -/
theorem chat_overlong_from_roundtrip_fails :
    from_bytes (to_bytes (.chat (List.replicate 256 97) [])) = none := by
  decide

/-- C1 (amended): for every `Message` whose variable-length fields fit their
wire length prefixes (and whose numeric fields fit their Rust integer
types), `from_bytes (to_bytes m) = some m`. -/
theorem to_bytes_from_bytes_roundtrip (m : Message) (h : m.wf) :
    from_bytes (to_bytes m) = some m := by
  cases m with
  | chat frm text => exact roundtrip_chat frm text h.1 h.2
  | ping seq => exact roundtrip_ping seq h
  | pong seq => exact roundtrip_pong seq h
  | join name => exact roundtrip_join name h
  | leave name => exact roundtrip_leave name h
  | callRequest frm => exact roundtrip_callRequest frm h
  | callHangup frm => exact roundtrip_callHangup frm h
  | callReject frm => exact roundtrip_callReject frm h
  | streamFrame frm lines => exact roundtrip_streamFrame frm lines h.1 h.2.1 h.2.2
  | videoFrame frm w hh pixels =>
      exact roundtrip_videoFrame frm w hh pixels h.1 h.2.1 h.2.2.1 h.2.2.2
  | videoFrameFragment frm w hh fid idx tot data =>
      exact roundtrip_videoFrameFragment frm w hh fid idx tot data
        h.1 h.2.1 h.2.2.1 h.2.2.2.1 h.2.2.2.2.1 h.2.2.2.2.2.1 h.2.2.2.2.2.2
  | discoveryAnnounce name port => exact roundtrip_discoveryAnnounce name port h.1 h.2

/-- Witness for C1's amended theorem at a concrete message. -/
theorem to_bytes_from_bytes_roundtrip_witness :
    (Message.chat [65, 108, 105, 99, 101] [72, 105]).wf ∧
    from_bytes (to_bytes (.chat [65, 108, 105, 99, 101] [72, 105]))
      = some (.chat [65, 108, 105, 99, 101] [72, 105]) :=
  ⟨by decide, to_bytes_from_bytes_roundtrip _ (by decide)⟩

/-- C2: `from_bytes` is total by construction (it is a Lean function on all
byte strings); an unrecognized tag byte yields `None`, and truncating a
valid encoding (the encoding of any well-formed message) at any byte offset
short of its full length yields `None` — so no length check ever reads out
of bounds. -/
theorem from_bytes_total_on_truncation :
    (∀ b : Bytes, b.getD 0 0 ∉ ([1, 2, 3, 4, 5, 6, 7, 8, 9, 10, 11, 12] : List Nat) →
      from_bytes b = none) ∧
    (∀ m : Message, m.wf → ∀ k, k < (to_bytes m).length →
      from_bytes ((to_bytes m).take k) = none) := by
  constructor
  · intro b hb
    simp only [List.mem_cons, List.not_mem_nil, or_false, not_or] at hb
    obtain ⟨h1, h2, h3, h4, h5, h6, h7, h8, h9, h10, h11, h12⟩ := hb
    rw [from_bytes]
    simp only [h1, h2, h3, h4, h5, h6, h7, h8, h9, h10, h11, h12, if_false, ite_self]
  · intro m hm k hk
    cases m with
    | chat frm text => exact trunc_chat frm text hm.1 hm.2 k hk
    | ping seq => exact trunc_ping seq k hk
    | pong seq => exact trunc_pong seq k hk
    | join name => exact trunc_join name hm k hk
    | leave name => exact trunc_leave name hm k hk
    | callRequest frm => exact trunc_callRequest frm hm k hk
    | callHangup frm => exact trunc_callHangup frm hm k hk
    | callReject frm => exact trunc_callReject frm hm k hk
    | streamFrame frm lines => exact trunc_streamFrame frm lines hm.1 hm.2.1 hm.2.2 k hk
    | videoFrame frm w hh pixels => exact trunc_videoFrame frm w hh pixels hm.1 hm.2.2.2 k hk
    | videoFrameFragment frm w hh fid idx tot data =>
        exact trunc_videoFrameFragment frm w hh fid idx tot data hm.1 hm.2.2.2.2.2.2 k hk
    | discoveryAnnounce name port => exact trunc_discoveryAnnounce name port hm.1 k hk

/-- Witness for C2 at concrete inputs: an unknown tag `0x0D`, and a 3-byte
truncation of an encoded `Ping`. -/
theorem from_bytes_total_on_truncation_witness :
    from_bytes [13, 7, 7] = none ∧
    ((Message.ping 42).wf ∧ (3 : Nat) < (to_bytes (.ping 42)).length ∧
      from_bytes ((to_bytes (.ping 42)).take 3) = none) :=
  ⟨from_bytes_total_on_truncation.1 [13, 7, 7] (by decide),
   ⟨by decide, by decide, from_bytes_total_on_truncation.2 _ (by decide) 3 (by decide)⟩⟩

end Message

/-! ### Chunking lemmas -/

theorem chunksOf_flatten (sz : Nat) (hsz : sz ≠ 0) (l : Bytes) :
    (chunksOf sz l).flatten = l := by
  rw [chunksOf]
  split
  · rename_i h
    rcases h with h | h
    · exact absurd h hsz
    · simp [h]
  · simp only [List.flatten_cons]
    rw [chunksOf_flatten sz hsz (l.drop sz), List.take_append_drop]
termination_by l.length
decreasing_by
  rename_i h
  push_neg at h
  have h1 : 0 < sz := Nat.pos_of_ne_zero h.1
  have h2 : 0 < l.length := List.length_pos.mpr h.2
  simp only [List.length_drop]
  omega

theorem chunksOf_length_1400 (l : Bytes) :
    (chunksOf 1400 l).length = (l.length + 1399) / 1400 := by
  rw [chunksOf]
  split
  · rename_i h
    rcases h with h | h
    · exact absurd h (by norm_num)
    · simp [h]
  · rename_i h
    push_neg at h
    have h2 : 0 < l.length := List.length_pos.mpr h.2
    simp only [List.length_cons]
    rw [chunksOf_length_1400 (l.drop 1400)]
    simp only [List.length_drop]
    omega
termination_by l.length
decreasing_by
  rename_i h
  push_neg at h
  have h2 : 0 < l.length := List.length_pos.mpr h.2
  simp only [List.length_drop]
  omega

theorem chunksOf_chunk_le (sz : Nat) (l : Bytes) :
    ∀ c ∈ chunksOf sz l, c.length ≤ sz := by
  by_cases h : sz = 0 ∨ l = []
  · rw [chunksOf, dif_pos h]
    intro c hc
    simp at hc
  · rw [chunksOf, dif_neg h]
    intro c hc
    rcases List.mem_cons.mp hc with h1 | h1
    · subst h1
      simp [List.length_take]
    · exact chunksOf_chunk_le sz (l.drop sz) c h1
termination_by l.length
decreasing_by
  push_neg at h
  have h1 : 0 < sz := Nat.pos_of_ne_zero h.1
  have h2 : 0 < l.length := List.length_pos.mpr h.2
  simp only [List.length_drop]
  omega

theorem enum_map_getD (l : List Bytes) (f : Nat × Bytes → Message) (i : Nat)
    (hi : i < l.length) (d : Message) :
    (l.enum.map f).getD i d = f (i, l.getD i []) := by
  have h1 : i < l.enum.length := by simpa [List.enum_length] using hi
  have h2 : (l.enum.map f)[i]? = some (f (i, l[i])) := by
    rw [List.getElem?_map, List.getElem?_eq_getElem h1, List.getElem_enum]
    rfl
  rw [List.getD_eq_getElem?_getD, h2, List.getD_eq_getElem?_getD,
    List.getElem?_eq_getElem hi]
  rfl

/-- C4: `send_video_frame` compresses once; a compressed payload of at most
1400 bytes goes out as a single fragment with `total_fragments = 1` and
`fragment_idx = 0` carrying the whole compressed payload; a larger one is
split into `ceil(len/1400)` chunks of at most 1400 bytes each, sharing
`frame_id`, with `fragment_idx = 0, 1, ..` and the common total; and more
than 255 chunks is an error with no message sent (the model returns the sent
messages, so the error case carries none). -/
theorem send_video_frame_structure (frm : Bytes) (w h fid : Nat) (pixels : Bytes) :
    ((compressPrependSize pixels).length ≤ 1400 →
      NetworkNode.send_video_frame frm w h pixels fid
        = .ok [.videoFrameFragment frm w h fid 0 1 (compressPrependSize pixels)]) ∧
    (1400 < (compressPrependSize pixels).length →
      ((compressPrependSize pixels).length + 1399) / 1400 ≤ 255 →
      ∃ msgs, NetworkNode.send_video_frame frm w h pixels fid = .ok msgs ∧
        msgs.length = ((compressPrependSize pixels).length + 1399) / 1400 ∧
        (chunksOf 1400 (compressPrependSize pixels)).flatten = compressPrependSize pixels ∧
        ∀ i, i < msgs.length →
          msgs.getD i (.ping 0) = .videoFrameFragment frm w h fid i
            (((compressPrependSize pixels).length + 1399) / 1400)
            ((chunksOf 1400 (compressPrependSize pixels)).getD i []) ∧
          ((chunksOf 1400 (compressPrependSize pixels)).getD i []).length ≤ 1400) ∧
    (1400 < (compressPrependSize pixels).length →
      255 < ((compressPrependSize pixels).length + 1399) / 1400 →
      NetworkNode.send_video_frame frm w h pixels fid
        = .error "Frame too large to fragment") := by
  refine ⟨fun hle => ?_, fun hgt hcap => ?_, fun hgt hover => ?_⟩
  · rw [NetworkNode.send_video_frame]
    simp only [MAX_FRAGMENT_SIZE]
    rw [if_pos hle]
  · have htot : (chunksOf 1400 (compressPrependSize pixels)).length
        = ((compressPrependSize pixels).length + 1399) / 1400 :=
      chunksOf_length_1400 (compressPrependSize pixels)
    refine ⟨(chunksOf 1400 (compressPrependSize pixels)).enum.map (fun ic =>
        .videoFrameFragment frm w h fid (u8c ic.1)
          (u8c (((compressPrependSize pixels).length + 1399) / 1400)) ic.2), ?_, ?_,
      chunksOf_flatten 1400 (by norm_num) _, ?_⟩
    · rw [NetworkNode.send_video_frame]
      simp only [MAX_FRAGMENT_SIZE]
      rw [if_neg (by omega), if_neg (by omega)]
    · simp [List.enum_length, htot]
    · intro i hi
      have hiL : i < (chunksOf 1400 (compressPrependSize pixels)).length := by
        simpa [List.enum_length] using hi
      constructor
      · rw [enum_map_getD _ _ i hiL]
        have hu1 : u8c i = i := Nat.mod_eq_of_lt (by omega)
        have hu2 : u8c (((compressPrependSize pixels).length + 1399) / 1400)
            = ((compressPrependSize pixels).length + 1399) / 1400 :=
          Nat.mod_eq_of_lt (by omega)
        simp only [hu1, hu2]
      · rw [List.getD_eq_getElem _ _ (by omega : i < (chunksOf 1400 (compressPrependSize pixels)).length)]
        exact chunksOf_chunk_le _ _ _ (List.getElem_mem _)
  · rw [NetworkNode.send_video_frame]
    simp only [MAX_FRAGMENT_SIZE]
    rw [if_neg (by omega), if_pos (by omega)]

set_option maxRecDepth 8192 in
/-- Witness for C4 at a concrete 2000-byte pixel buffer (two fragments). -/
theorem send_video_frame_structure_witness :
    1400 < (compressPrependSize (List.replicate 2000 5)).length ∧
    (∃ msgs, NetworkNode.send_video_frame [97] 4 4 (List.replicate 2000 5) 9 = .ok msgs ∧
      msgs.length = ((compressPrependSize (List.replicate 2000 5)).length + 1399) / 1400 ∧
      (chunksOf 1400 (compressPrependSize (List.replicate 2000 5))).flatten
        = compressPrependSize (List.replicate 2000 5) ∧
      ∀ i, i < msgs.length →
        msgs.getD i (.ping 0) = Message.videoFrameFragment [97] 4 4 9 i
          (((compressPrependSize (List.replicate 2000 5)).length + 1399) / 1400)
          ((chunksOf 1400 (compressPrependSize (List.replicate 2000 5))).getD i []) ∧
        ((chunksOf 1400 (compressPrependSize (List.replicate 2000 5))).getD i []).length
          ≤ 1400) := by
  have hgt : 1400 < (compressPrependSize (List.replicate 2000 5)).length := by
    simp [compressPrependSize, u32le]
  have hcap : ((compressPrependSize (List.replicate 2000 5)).length + 1399) / 1400 ≤ 255 := by
    simp [compressPrependSize, u32le]
  exact ⟨hgt, (send_video_frame_structure [97] 4 4 9 (List.replicate 2000 5)).2.1 hgt hcap⟩

/-! ### C7: prune_peers -/

theorem pruneGo_spec (now timeout : Nat) (ps : List Peer) :
    NetworkNode.pruneGo now timeout ps
      = (ps.filter (fun p => timeout ≤ now - p.last_seen),
         ps.filter (fun p => now - p.last_seen < timeout)) := by
  induction ps with
  | nil => rfl
  | cons p ps ih =>
      by_cases hp : timeout ≤ now - p.last_seen
      · have h2 : ¬(now - p.last_seen < timeout) := by omega
        simp [NetworkNode.pruneGo, ih, hp, h2, List.filter_cons]
      · have h2 : now - p.last_seen < timeout := by omega
        simp [NetworkNode.pruneGo, ih, hp, h2, List.filter_cons]

/-- C7 counterexample: the claim asks for removal exactly when the age
STRICTLY exceeds the timeout, but the source prunes on
`now.duration_since(p.last_seen) >= timeout`: a peer whose age equals the
timeout exactly is pruned. -/
theorem prune_peers_boundary_pruned :
    (NetworkNode.prune_peers
      { local_addr := 1, public_addr := none,
        peers := [{ name := [98], addr := 7, last_seen := 0 }], known_addrs := [],
        recently_left := [], name := [110], fragment_buffers := [] } 5 5).2
      = [{ name := [98], addr := 7, last_seen := 0 }] ∧
    ¬ ((5 : Nat) - 0 > 5) := by
  constructor
  · rfl
  · decide

/-- C7 (amended): `prune_peers(timeout)` removes and returns exactly the
peers whose age is at least `timeout` (`>=`, not strictly greater), in
traversal order; the remaining peers are exactly those with age below the
timeout, kept in order with every field unchanged. -/
theorem prune_peers_filter (st : NetworkNode) (now timeout : Nat) :
    (st.prune_peers now timeout).2
      = st.peers.filter (fun p => timeout ≤ now - p.last_seen) ∧
    (st.prune_peers now timeout).1
      = { st with peers := st.peers.filter (fun p => now - p.last_seen < timeout) } := by
  unfold NetworkNode.prune_peers
  rw [pruneGo_spec]
  exact ⟨rfl, rfl⟩

/-! ### C8: remove_peer / recently_left -/

/-- A concrete empty node, used by witnesses. -/
def sampleNode : NetworkNode :=
  { local_addr := 1, public_addr := none, peers := [], known_addrs := [],
    recently_left := [], name := [110], fragment_buffers := [] }

/-- C8: `recently_left` returns true when queried immediately after
`remove_peer(addr)`, false once the 2-second grace period has elapsed, and
every call evicts all entries whose departure time is `LEAVE_GRACE_PERIOD`
or older. -/
theorem recently_left_grace (st : NetworkNode) (addr t : Nat) :
    ((st.remove_peer addr t).recently_left_check addr t).2 = true ∧
    (∀ now, t + LEAVE_GRACE_PERIOD ≤ now →
      ((st.remove_peer addr t).recently_left_check addr now).2 = false) ∧
    (∀ now, ∀ e ∈ (st.recently_left_check addr now).1.recently_left,
      now - e.2 < LEAVE_GRACE_PERIOD) := by
  refine ⟨?_, fun now hnow => ?_, fun now e he => ?_⟩
  · simp only [NetworkNode.recently_left_check, NetworkNode.remove_peer, insertTime]
    simp only [List.find?_isSome, List.mem_filter, List.mem_append]
    refine ⟨(addr, t), ⟨Or.inr (by simp), ?_⟩, by simp⟩
    simp [LEAVE_GRACE_PERIOD]
  · simp only [NetworkNode.recently_left_check, NetworkNode.remove_peer, insertTime]
    have hnone : (((st.recently_left.filter (fun e => e.1 ≠ addr)) ++ [(addr, t)]).filter
        (fun e => now - e.2 < LEAVE_GRACE_PERIOD)).find? (fun e => e.1 = addr) = none := by
      rw [List.find?_eq_none]
      intro x hx
      simp only [List.mem_filter, List.mem_append, List.mem_singleton] at hx
      rcases hx.1 with h | h
      · simpa using h.2
      · exfalso
        have hx2 : x.2 = t := by rw [h]
        have := hx.2
        simp only [LEAVE_GRACE_PERIOD] at this hnow
        rw [hx2] at this
        simp at this
        omega
    simp [hnone]
    simp only [LEAVE_GRACE_PERIOD] at hnow ⊢
    omega
  · simp only [NetworkNode.recently_left_check] at he
    simp only [List.mem_filter] at he
    simpa using he.2

/-- Witness for C8 at a concrete address and departure time. -/
theorem recently_left_grace_witness :
    ((sampleNode.remove_peer 7 100).recently_left_check 7 100).2 = true ∧
    ((sampleNode.remove_peer 7 100).recently_left_check 7 2100).2 = false :=
  ⟨(recently_left_grace sampleNode 7 100).1,
   (recently_left_grace sampleNode 7 100).2.1 2100 (by decide)⟩

/-! ### C9: peer-table uniqueness and upsert -/

/-- Address-uniqueness of the live peer table. -/
def addrUnique (ps : List Peer) : Prop := (ps.map (fun p => p.addr)).Nodup

instance (ps : List Peer) : Decidable (addrUnique ps) := by
  unfold addrUnique
  infer_instance

theorem updateFirst_addrs (f : Peer → Bool) (g : Peer → Peer)
    (hg : ∀ p, (g p).addr = p.addr) (ps : List Peer) :
    (updateFirst f g ps).map (fun p => p.addr) = ps.map (fun p => p.addr) := by
  induction ps with
  | nil => rfl
  | cons p ps ih =>
      rw [updateFirst]
      by_cases hf : f p
      · simp [hf, hg]
      · simp [hf, ih]

theorem updateFirst_eq_map_of_unique (g : Peer → Peer) (addr : Nat) (ps : List Peer)
    (h : addrUnique ps) :
    updateFirst (fun p => p.addr = addr) g ps
      = ps.map (fun p => if p.addr = addr then g p else p) := by
  induction ps with
  | nil => rfl
  | cons p ps ih =>
      have h' := h
      simp only [addrUnique, List.map_cons, List.nodup_cons] at h'
      rw [updateFirst]
      by_cases hp : p.addr = addr
      · have hrest : ∀ q ∈ ps, ¬(q.addr = addr) := by
          intro q hq hqa
          exact h'.1 (by rw [hp, ← hqa]; exact List.mem_map_of_mem _ hq)
        have hmap : ps.map (fun q => if q.addr = addr then g q else q) = ps := by
          rw [List.map_congr_left (fun q hq => by rw [if_neg (hrest q hq)])]
          simp
        simp [hp, hmap]
      · rw [ih h'.2]
        simp [hp]

/-- `addr ∈ insertSet s addr`. -/
theorem mem_insertSet (s : List Nat) (a : Nat) : a ∈ insertSet s a := by
  unfold insertSet
  by_cases h : a ∈ s
  · rwa [if_pos h]
  · rw [if_neg h]
    simp

/-- C9: every peer-table operation preserves address-uniqueness; `add_peer`
on a present address updates that entry in place (name and `last_seen`)
rather than appending, and records the address in `known_addrs`; `add_peer`
on the node's own local or public address changes nothing. -/
theorem peer_table_invariants (st : NetworkNode) (nm : Bytes) (addr now timeout : Nat) :
    (addrUnique st.peers →
      addrUnique (st.add_peer nm addr now).peers ∧
      addrUnique (st.remove_peer addr now).peers ∧
      addrUnique (st.touch_peer addr now).peers ∧
      addrUnique ((st.prune_peers now timeout).1).peers ∧
      addrUnique (st.connect_to_peer addr now).peers) ∧
    (addrUnique st.peers →
      ¬(some addr = st.public_addr ∨ addr = st.local_addr) →
      (∃ p ∈ st.peers, p.addr = addr) →
      (st.add_peer nm addr now).peers
        = st.peers.map (fun p => if p.addr = addr then
            { p with name := nm, last_seen := now } else p) ∧
      addr ∈ (st.add_peer nm addr now).known_addrs) ∧
    ((some addr = st.public_addr ∨ addr = st.local_addr) →
      st.add_peer nm addr now = st) := by
  have hadd : ∀ (nm' : Bytes), addrUnique st.peers →
      addrUnique (st.add_peer nm' addr now).peers := by
    intro nm' hu
    unfold NetworkNode.add_peer
    by_cases hself : some addr = st.public_addr ∨ addr = st.local_addr
    · rwa [if_pos hself]
    · rw [if_neg hself]
      by_cases hany : st.peers.any (fun p => p.addr = addr)
      · simp only [hany, if_true]
        unfold addrUnique
        rwa [updateFirst_addrs _ (fun p => { p with name := nm', last_seen := now })
          (fun p => rfl)]
      · simp only [hany, if_false, Bool.false_eq_true]
        unfold addrUnique
        simp only [List.map_append, List.map_cons, List.map_nil]
        rw [List.nodup_append]
        refine ⟨hu, List.nodup_singleton _, ?_⟩
        intro a ha hmem
        simp only [List.mem_singleton] at hmem
        obtain ⟨p, hp, hpa⟩ := List.mem_map.mp ha
        have hall : ∀ q ∈ st.peers, ¬(q.addr = addr) := by
          simpa [List.any_eq_false] using hany
        exact hall p hp (by rw [hpa, hmem])
  refine ⟨fun hu => ⟨hadd nm hu, ?_, ?_, ?_, hadd _ hu⟩, fun hu hself hex => ?_, fun hself => ?_⟩
  · unfold NetworkNode.remove_peer addrUnique
    exact hu.sublist ((List.filter_sublist _).map _)
  · unfold NetworkNode.touch_peer addrUnique
    dsimp only
    rwa [updateFirst_addrs _ (fun p => { p with last_seen := now }) (fun p => rfl)]
  · unfold NetworkNode.prune_peers addrUnique
    rw [pruneGo_spec]
    exact hu.sublist ((List.filter_sublist _).map _)
  · have hany : st.peers.any (fun p => p.addr = addr) = true := by
      rw [List.any_eq_true]
      obtain ⟨p, hp, hpa⟩ := hex
      exact ⟨p, hp, by simp [hpa]⟩
    constructor
    · unfold NetworkNode.add_peer
      rw [if_neg hself]
      simp only [hany, if_true]
      exact updateFirst_eq_map_of_unique _ addr st.peers hu
    · unfold NetworkNode.add_peer
      rw [if_neg hself]
      simp only [hany, if_true]
      exact mem_insertSet st.known_addrs addr
  · unfold NetworkNode.add_peer
    rw [if_pos hself]

/-- A concrete two-peer node used by the C9 witness. -/
def sampleNode9 : NetworkNode :=
  { local_addr := 1, public_addr := none,
    peers := [{ name := [97], addr := 5, last_seen := 0 },
              { name := [98], addr := 6, last_seen := 0 }],
    known_addrs := [5, 6], recently_left := [], name := [110], fragment_buffers := [] }

/-- Witness for C9: upsert on a present address, known-address recording,
and self-suppression, at concrete inputs. -/
theorem peer_table_invariants_witness :
    addrUnique (sampleNode9.add_peer [99] 5 50).peers ∧
    (sampleNode9.add_peer [99] 5 50).peers
      = sampleNode9.peers.map (fun p => if p.addr = 5 then
          { p with name := [99], last_seen := 50 } else p) ∧
    5 ∈ (sampleNode9.add_peer [99] 5 50).known_addrs ∧
    sampleNode9.add_peer [99] 1 50 = sampleNode9 :=
  ⟨((peer_table_invariants sampleNode9 [99] 5 50 30).1 (by decide)).1,
   ((peer_table_invariants sampleNode9 [99] 5 50 30).2.1 (by decide) (by decide)
      ⟨{ name := [97], addr := 5, last_seen := 0 }, by decide, rfl⟩).1,
   ((peer_table_invariants sampleNode9 [99] 5 50 30).2.1 (by decide) (by decide)
      ⟨{ name := [97], addr := 5, last_seen := 0 }, by decide, rfl⟩).2,
   (peer_table_invariants sampleNode9 [99] 1 50 30).2.2 (by decide)⟩

/-! ### C5/C6: fragment-buffer lifecycle -/

theorem mem_eraseF {kv : FragKey × FragmentBuffer} {m : FragMap} {k : FragKey}
    (h : kv ∈ eraseF m k) : kv ∈ m :=
  List.mem_of_mem_filter h

theorem mem_insertF {kv : FragKey × FragmentBuffer} {m : FragMap} {k : FragKey}
    {v : FragmentBuffer} (h : kv ∈ insertF m k v) : kv ∈ m ∨ kv = (k, v) := by
  unfold insertF at h
  rcases List.mem_append.mp h with h | h
  · exact Or.inl (mem_eraseF h)
  · exact Or.inr (List.mem_singleton.mp h)

theorem add_fragment_received_at (b : FragmentBuffer) (idx : Nat) (data : Bytes) :
    (b.add_fragment idx data).received_at = b.received_at := by
  unfold FragmentBuffer.add_fragment
  split <;> rfl

theorem lookupF_mem {m : FragMap} {k : FragKey} {b : FragmentBuffer}
    (h : lookupF m k = some b) : ∃ kv ∈ m, kv.2 = b := by
  unfold lookupF at h
  obtain ⟨kv, hfind, hsnd⟩ := Option.map_eq_some'.mp h
  exact ⟨kv, List.mem_of_find?_eq_some hfind, hsnd⟩

theorem buffer0_received_bound (bufs : FragMap) (now : Nat) (key : FragKey)
    (frm : Bytes) (w h fid tot : Nat)
    (hb : ∀ kv ∈ bufs, now - kv.2.received_at < FRAGMENT_TTL) :
    now - (match lookupF bufs key with
           | some b => b
           | none => FragmentBuffer.new frm w h fid tot now).received_at < FRAGMENT_TTL := by
  cases hl : lookupF bufs key with
  | some b =>
      obtain ⟨kv, hkv, hsnd⟩ := lookupF_mem hl
      rw [← hsnd]
      exact hb kv hkv
  | none => simp [FragmentBuffer.new, FRAGMENT_TTL]

/-- C6: at the start of each `process_fragment` call every buffer aged
`FRAGMENT_TTL` or more is purged (the `retain` keeps strictly younger ones),
and the buffer then inserted is brand new or survived the purge; hence after
every call all remaining fragment buffers are younger than the 2-second
TTL — in particular an incomplete buffer whose TTL has elapsed is gone. -/
theorem fragment_buffers_younger_than_ttl (st : NetworkNode) (now : Nat) (frm : Bytes)
    (w h fid idx tot : Nat) (data : Bytes) :
    ∀ kv ∈ (st.process_fragment now frm w h fid idx tot data).1.fragment_buffers,
      now - kv.2.received_at < FRAGMENT_TTL := by
  intro kv hkv
  have hfil : ∀ kv' ∈ st.fragment_buffers.filter
      (fun e => now - e.2.received_at < FRAGMENT_TTL),
      now - kv'.2.received_at < FRAGMENT_TTL := by
    intro kv' hkv'
    simp only [List.mem_filter] at hkv'
    simpa using hkv'.2
  unfold NetworkNode.process_fragment at hkv
  dsimp only at hkv
  split at hkv
  · split at hkv
    · exact hfil kv (mem_eraseF hkv)
    · rcases mem_insertF hkv with hm | he
      · exact hfil kv hm
      · subst he
        rw [add_fragment_received_at]
        exact buffer0_received_bound _ now (frm, fid) frm w h fid tot hfil
  · rcases mem_insertF hkv with hm | he
    · exact hfil kv hm
    · subst he
      rw [add_fragment_received_at]
      exact buffer0_received_bound _ now (frm, fid) frm w h fid tot hfil

/-- The buffer present after the C6 witness call (1 of 5 fragments). -/
def sampleBuf6 : FragmentBuffer :=
  { frm := [120], width := 2, height := 2, frame_id := 3, total_fragments := 5,
    fragments := [some [9], none, none, none, none], received_at := 0 }

/-- Witness for C6 at a concrete call (1 of 5 fragments buffered). -/
theorem fragment_buffers_younger_than_ttl_witness :
    (0 : Nat) - sampleBuf6.received_at < FRAGMENT_TTL :=
  fragment_buffers_younger_than_ttl sampleNode 0 [120] 2 2 3 0 5 [9]
    (([120], 3), sampleBuf6) (by decide)

theorem lookupF_eraseF (m : FragMap) (k : FragKey) : lookupF (eraseF m k) k = none := by
  unfold lookupF eraseF
  rw [Option.map_eq_none']
  rw [List.find?_eq_none]
  intro x hx
  simp only [List.mem_filter] at hx
  simpa using hx.2

theorem lookupF_filter_none {m : FragMap} {k : FragKey} (f : FragKey × FragmentBuffer → Bool)
    (h : lookupF m k = none) : lookupF (m.filter f) k = none := by
  unfold lookupF at h ⊢
  rw [Option.map_eq_none'] at h ⊢
  rw [List.find?_eq_none] at h ⊢
  intro x hx
  exact h x (List.mem_of_mem_filter hx)

theorem all_isSome_replicate_false (tot : Nat) (h1 : 1 ≤ tot) :
    ((List.replicate tot (none : Option Bytes)).all (fun o => o.isSome)) = false := by
  rw [List.all_eq_false]
  exact ⟨none, List.mem_replicate.mpr ⟨by omega, rfl⟩, by simp⟩

theorem all_isSome_set_replicate_false (tot idx : Nat) (data : Bytes) (h2 : 2 ≤ tot) :
    (((List.replicate tot (none : Option Bytes)).set idx (some data)).all
      (fun o => o.isSome)) = false := by
  rw [List.all_eq_false]
  refine ⟨none, ?_, by simp⟩
  obtain ⟨t, rfl⟩ : ∃ t, tot = t + 2 := ⟨tot - 2, by omega⟩
  cases idx with
  | zero => simp [List.replicate_succ]
  | succ i => simp [List.replicate_succ]

/-- C5 counterexample: `process_fragment` keeps no record of reassembled
`(from, frame_id)` pairs — a duplicate fragment arriving after its frame was
reassembled starts a fresh buffer instead of being ignored, and for a
single-fragment frame the duplicate completes that fresh buffer and the
frame is reassembled and returned a second time (the claim requires
"no message" here). -/
theorem duplicate_fragment_reassembled_again :
    ((sampleNode.process_fragment 0 [120] 2 2 3 0 1 (compressPrependSize [5])).1.process_fragment
        0 [120] 2 2 3 0 1 (compressPrependSize [5])).2
      = some (Message.videoFrame [120] 2 2 [5]) := by
  decide

/-- C5 (amended): a `FragmentBuffer` is removed from the map in the very
call in which its frame completes (whenever `process_fragment` returns
`Some`, the key is gone from the map afterwards); but fragments for an
already-reassembled `(from, frame_id)` are NOT remembered: such a fragment
re-creates a buffer, and only returns "no message" as long as that fresh
buffer is incomplete — which is guaranteed for a first duplicate when
`total_fragments ≥ 2`, while a duplicated single-fragment frame is
reassembled again. -/
theorem fragment_buffer_consumed_on_completion (st : NetworkNode) (now : Nat) (frm : Bytes)
    (w h fid idx tot : Nat) (data : Bytes) :
    (∀ m', (st.process_fragment now frm w h fid idx tot data).2 = some m' →
      lookupF (st.process_fragment now frm w h fid idx tot data).1.fragment_buffers
        (frm, fid) = none) ∧
    (lookupF st.fragment_buffers (frm, fid) = none → 2 ≤ tot →
      (st.process_fragment now frm w h fid idx tot data).2 = none) := by
  constructor
  · intro m' hm
    unfold NetworkNode.process_fragment at hm ⊢
    dsimp only at hm ⊢
    split at hm
    · rename_i hcomp
      split at hm
      · rename_i pixels hre
        simp only [hcomp, if_true, hre]
        exact lookupF_eraseF _ _
      · simp at hm
    · simp at hm
  · intro hlk h2
    unfold NetworkNode.process_fragment
    dsimp only
    rw [lookupF_filter_none _ hlk]
    unfold FragmentBuffer.add_fragment FragmentBuffer.new FragmentBuffer.is_complete
    dsimp only
    by_cases hidx : idx < (List.replicate tot (none : Option Bytes)).length
    · rw [if_pos hidx]
      dsimp only
      rw [all_isSome_set_replicate_false tot idx data h2]
      simp
    · rw [if_neg hidx]
      dsimp only
      rw [all_isSome_replicate_false tot (by omega)]
      simp

/-- Witness for C5: the completed buffer is gone after reassembly, and a
first fragment of a 5-fragment frame yields no message. -/
theorem fragment_buffer_consumed_on_completion_witness :
    lookupF ((sampleNode.process_fragment 0 [120] 2 2 3 0 1
        (compressPrependSize [5])).1.fragment_buffers) ([120], 3) = none ∧
    (sampleNode.process_fragment 0 [120] 2 2 7 0 5 [1]).2 = none :=
  ⟨(fragment_buffer_consumed_on_completion sampleNode 0 [120] 2 2 3 0 1
      (compressPrependSize [5])).1 (Message.videoFrame [120] 2 2 [5]) (by decide),
   (fragment_buffer_consumed_on_completion sampleNode 0 [120] 2 2 7 0 5 [1]).2
      (by decide) (by decide)⟩

/-! ### C10: the uncompressed-length field of a VideoFrame is ignored -/

theorem slice_append_left (c X : Bytes) (i n : Nat) (h : i + n ≤ c.length) :
    byteSlice (c ++ X) i n = byteSlice c i n := by
  unfold byteSlice
  rw [List.drop_append_eq_append_drop, Nat.sub_eq_zero_of_le (by omega), List.drop_zero,
    List.take_append_of_le_length (by simp [List.length_drop]; omega)]

/-- C10: the 4-byte uncompressed-length field of a `VideoFrame` wire image
is read and discarded by `from_bytes`; two inputs that agree everywhere
except in those four bytes decode identically, and the decoded pixels are
determined solely by the LZ4 payload's own prepended size.  `c` is the
header through width/height (tag, from-length byte, `from`, width, height),
`u1`/`u2` are the two arbitrary 4-byte uncompressed-length fields, `r` is
the rest (compressed-length field and payload). -/
theorem video_frame_uncompressed_len_ignored (c u1 u2 r : Bytes)
    (htag : c.getD 0 0 = 10) (hlen : c.length = 6 + c.getD 1 0)
    (hu1 : u1.length = 4) (hu2 : u2.length = 4) :
    Message.from_bytes (c ++ u1 ++ r) = Message.from_bytes (c ++ u2 ++ r) := by
  suffices hgen : ∀ u : Bytes, u.length = 4 →
      Message.from_bytes (c ++ u ++ r)
        = (if r.length < 4 then none
           else if r.length < 4 + readU32 r 0 then none
           else match decompressSizePrepended ((r.drop 4).take (readU32 r 0)) with
                | some pixels => some (.videoFrame (byteSlice c 2 (c.getD 1 0))
                    (readU16 c (2 + c.getD 1 0)) (readU16 c (2 + c.getD 1 0 + 2)) pixels)
                | none => none) by
    rw [hgen u1 hu1, hgen u2 hu2]
  intro u hu
  set f := c.getD 1 0 with hf
  have hL : (c ++ u ++ r).length = 10 + f + r.length := by
    simp [hlen, hu]
    omega
  have hassoc : c ++ u ++ r = c ++ (u ++ r) := by simp [List.append_assoc]
  have htag0 : (c ++ u ++ r).getD 0 0 = 10 := by
    rw [hassoc, getD_append_left' _ _ _ _ (by omega)]
    exact htag
  have hfl : (c ++ u ++ r).getD 1 0 = f := by
    rw [hassoc, getD_append_left' _ _ _ _ (by omega)]
  have hw : readU16 (c ++ u ++ r) (2 + f) = readU16 c (2 + f) := by
    unfold readU16
    rw [hassoc, getD_append_left' _ _ _ _ (by omega), getD_append_left' _ _ _ _ (by omega)]
  have hh : readU16 (c ++ u ++ r) (2 + f + 2) = readU16 c (2 + f + 2) := by
    unfold readU16
    rw [hassoc, getD_append_left' _ _ _ _ (by omega), getD_append_left' _ _ _ _ (by omega)]
  have hcuL : (c ++ u).length = 10 + f := by
    simp [hlen, hu]
    omega
  have hclen : readU32 (c ++ u ++ r) (2 + f + 8) = readU32 r 0 := by
    unfold readU32
    rw [Message.getD_at (c ++ u) r _ 0 0 (by omega), Message.getD_at (c ++ u) r _ 1 0 (by omega),
        Message.getD_at (c ++ u) r _ 2 0 (by omega), Message.getD_at (c ++ u) r _ 3 0 (by omega)]
  have hsfrom : byteSlice (c ++ u ++ r) 2 f = byteSlice c 2 f := by
    rw [hassoc, slice_append_left _ _ _ _ (by omega)]
  have hspay : byteSlice (c ++ u ++ r) (2 + f + 12) (readU32 r 0)
      = (r.drop 4).take (readU32 r 0) := by
    rw [Message.slice_at (c ++ u) r _ 4 _ (by omega)]
  rw [Message.from_bytes]
  simp only [hL, htag0, hfl, hw, hh, hclen, hsfrom, hspay]
  have h0 : ¬(10 + f + r.length = 0) := by omega
  have hlt2 : ¬(10 + f + r.length < 2) := by omega
  by_cases hr4 : r.length < 4
  · have hcpos : 10 + f + r.length < 2 + f + 12 := by omega
    norm_num [h0, hlt2, hcpos, hr4]
  · have hcneg : ¬(10 + f + r.length < 2 + f + 12) := by omega
    by_cases hr5 : r.length < 4 + readU32 r 0
    · have hfin : 10 + f + r.length < 2 + f + 12 + readU32 r 0 := by omega
      norm_num [h0, hlt2, hcneg, hfin, hr4, hr5]
    · have hfin : ¬(10 + f + r.length < 2 + f + 12 + readU32 r 0) := by omega
      norm_num [h0, hlt2, hcneg, hfin, hr4, hr5]

/-- Witness for C10: two concrete VideoFrame wire images differing only in
the uncompressed-length field decode identically. -/
theorem video_frame_uncompressed_len_ignored_witness :
    Message.from_bytes ([10, 0, 0, 0, 0, 0] ++ [0, 0, 0, 0] ++ [1, 0, 0, 0])
      = Message.from_bytes ([10, 0, 0, 0, 0, 0] ++ [9, 9, 9, 9] ++ [1, 0, 0, 0]) :=
  video_frame_uncompressed_len_ignored [10, 0, 0, 0, 0, 0] [0, 0, 0, 0] [9, 9, 9, 9]
    [1, 0, 0, 0] (by decide) (by decide) (by decide) (by decide)

/-! ### C3: fragmentation / reassembly round-trip -/

/-- The fragment messages `send_video_frame` emits for chunk list `cs`,
restricted to the index list `idxs`. -/
def msgsOf (frm : Bytes) (w h fid n : Nat) (cs : List Bytes) (idxs : List Nat) : List Message :=
  idxs.map (fun i => .videoFrameFragment frm w h fid i n (cs.getD i []))

/-- The fragment buffer present after the fragments with indices `fed` (out
of `n` chunks `cs`) have been stored. -/
def mkBuf (frm : Bytes) (w h fid n now : Nat) (cs : List Bytes) (fed : List Nat) :
    FragmentBuffer :=
  { frm := frm, width := w, height := h, frame_id := fid, total_fragments := n,
    fragments := (List.range n).map (fun j => if j ∈ fed then some (cs.getD j []) else none),
    received_at := now }

theorem lookupF_single (k : FragKey) (v : FragmentBuffer) : lookupF [(k, v)] k = some v := by
  simp [lookupF, List.find?]

theorem map_getD_range (cs : List Bytes) :
    (List.range cs.length).map (fun j => cs.getD j []) = cs := by
  apply List.ext_getElem
  · simp
  · intro j h1 h2
    simp only [List.getElem_map, List.getElem_range]
    exact List.getD_eq_getElem cs [] h2

theorem set_map_range (n i : Nat) (g : Nat → Option Bytes) (v : Option Bytes) (hi : i < n) :
    ((List.range n).map g).set i v = (List.range n).map (fun j => if j = i then v else g j) := by
  apply List.ext_getElem
  · simp
  · intro j h1 h2
    have hj : j < n := by simpa using h2
    rw [List.getElem_set]
    simp only [List.getElem_map, List.getElem_range]
    by_cases h : i = j
    · simp [h]
    · rw [if_neg h, if_neg (fun hh => h hh.symm)]

theorem mkBuf_congr (frm : Bytes) (w h fid n now : Nat) (cs : List Bytes)
    (f1 f2 : List Nat) (hf : ∀ j, j ∈ f1 ↔ j ∈ f2) :
    mkBuf frm w h fid n now cs f1 = mkBuf frm w h fid n now cs f2 := by
  unfold mkBuf
  congr 1
  apply List.map_congr_left
  intro j _
  by_cases hj : j ∈ f1
  · rw [if_pos hj, if_pos ((hf j).mp hj)]
  · rw [if_neg hj, if_neg (fun hc => hj ((hf j).mpr hc))]

theorem mkBuf_nil (frm : Bytes) (w h fid n now : Nat) (cs : List Bytes) :
    mkBuf frm w h fid n now cs [] = FragmentBuffer.new frm w h fid n now := by
  unfold mkBuf FragmentBuffer.new
  congr 1
  simp [List.map_const']

theorem mkBuf_complete_iff (frm : Bytes) (w h fid n now : Nat) (cs : List Bytes)
    (fed : List Nat) :
    (mkBuf frm w h fid n now cs fed).is_complete = true ↔ ∀ j < n, j ∈ fed := by
  unfold mkBuf FragmentBuffer.is_complete
  simp only [List.all_eq_true]
  constructor
  · intro hall j hj
    have := hall _ (List.mem_map_of_mem _ (List.mem_range.mpr hj))
    by_contra hmem
    rw [if_neg hmem] at this
    simp at this
  · intro hall x hx
    obtain ⟨j, hj, rfl⟩ := List.mem_map.mp hx
    rw [if_pos (hall j (List.mem_range.mp hj))]
    simp

theorem mkBuf_reassemble (frm : Bytes) (w h fid n now : Nat) (cs : List Bytes)
    (fed : List Nat) (hn : cs.length = n) (hc : ∀ j < n, j ∈ fed) :
    (mkBuf frm w h fid n now cs fed).reassemble
      = decompressSizePrepended cs.flatten := by
  unfold FragmentBuffer.reassemble
  rw [if_neg (by simp [mkBuf_complete_iff frm w h fid n now cs fed]; exact hc)]
  congr 1
  have hfr : (mkBuf frm w h fid n now cs fed).fragments
      = (List.range n).map (fun j => some (cs.getD j [])) := by
    unfold mkBuf
    apply List.map_congr_left
    intro j hj
    rw [if_pos (hc j (List.mem_range.mp hj))]
  rw [hfr]
  congr 1
  rw [List.filterMap_map]
  show List.filterMap (some ∘ fun j => cs.getD j []) (List.range n) = cs
  rw [List.filterMap_eq_map]
  subst hn
  exact map_getD_range cs

theorem add_fragment_mkBuf (frm : Bytes) (w h fid n now : Nat) (cs : List Bytes)
    (fed : List Nat) (i : Nat) (hi : i < n) :
    (mkBuf frm w h fid n now cs fed).add_fragment i (cs.getD i [])
      = mkBuf frm w h fid n now cs (i :: fed) := by
  unfold FragmentBuffer.add_fragment mkBuf
  dsimp only
  rw [if_pos (by simpa using hi)]
  congr 1
  rw [set_map_range n i _ _ hi]
  apply List.map_congr_left
  intro j hj
  by_cases hji : j = i
  · subst hji
    simp
  · rw [if_neg hji]
    by_cases hjf : j ∈ fed
    · rw [if_pos hjf, if_pos (by simp [hjf])]
    · rw [if_neg hjf, if_neg (by simp [hji, hjf])]

theorem eraseF_single (k : FragKey) (v : FragmentBuffer) : eraseF [(k, v)] k = [] := by
  simp [eraseF]

/-- One `process_fragment` call on a node whose fragment-buffer map holds
exactly the buffer for `(frm, fid)` with the fragments `fed` stored (or
nothing when `fed = []`): stores chunk `i`, and completes exactly when every
index is now covered. -/
theorem pf_step (st : NetworkNode) (now : Nat) (frm : Bytes) (w h fid n i : Nat)
    (cs : List Bytes) (fed : List Nat) (px : Bytes)
    (hn : cs.length = n) (hi : i < n)
    (hdec : decompressSizePrepended cs.flatten = some px)
    (hst : st.fragment_buffers
      = if fed = [] then [] else [((frm, fid), mkBuf frm w h fid n now cs fed)]) :
    st.process_fragment now frm w h fid i n (cs.getD i [])
      = if ∀ j < n, j = i ∨ j ∈ fed then
          ({ st with fragment_buffers := [] }, some (.videoFrame frm w h px))
        else
          ({ st with fragment_buffers := [((frm, fid), mkBuf frm w h fid n now cs (i :: fed))] },
            none) := by
  unfold NetworkNode.process_fragment
  dsimp only
  have hfilter : st.fragment_buffers.filter (fun kv => now - kv.2.received_at < FRAGMENT_TTL)
      = st.fragment_buffers := by
    rw [hst]
    by_cases hf : fed = []
    · simp [hf]
    · rw [if_neg hf]
      simp [mkBuf, FRAGMENT_TTL]
  rw [hfilter, hst]
  have hbuffer0 : (match lookupF (if fed = [] then ([] : FragMap) else
        [((frm, fid), mkBuf frm w h fid n now cs fed)]) (frm, fid) with
      | some b => b
      | none => FragmentBuffer.new frm w h fid n now) = mkBuf frm w h fid n now cs fed := by
    by_cases hf : fed = []
    · subst hf
      rw [if_pos rfl, mkBuf_nil]
      simp [lookupF]
    · rw [if_neg hf, lookupF_single]
  rw [hbuffer0, add_fragment_mkBuf frm w h fid n now cs fed i hi]
  have hins : insertF (if fed = [] then ([] : FragMap) else
        [((frm, fid), mkBuf frm w h fid n now cs fed)]) (frm, fid)
        (mkBuf frm w h fid n now cs (i :: fed))
      = [((frm, fid), mkBuf frm w h fid n now cs (i :: fed))] := by
    by_cases hf : fed = []
    · rw [if_pos hf]
      rfl
    · rw [if_neg hf]
      unfold insertF
      rw [eraseF_single]
      rfl
  have herase : eraseF (if fed = [] then ([] : FragMap) else
        [((frm, fid), mkBuf frm w h fid n now cs fed)]) (frm, fid) = [] := by
    by_cases hf : fed = []
    · rw [if_pos hf]
      rfl
    · rw [if_neg hf]
      exact eraseF_single _ _
  by_cases hcomp : ∀ j < n, j = i ∨ j ∈ fed
  · have hcov : ∀ j < n, j ∈ i :: fed := by
      intro j hj
      rcases hcomp j hj with hh | hh
      · simp [hh]
      · simp [hh]
    have hc : (mkBuf frm w h fid n now cs (i :: fed)).is_complete = true :=
      (mkBuf_complete_iff frm w h fid n now cs (i :: fed)).mpr hcov
    rw [if_pos hcomp, hc]
    simp only [if_true]
    rw [mkBuf_reassemble frm w h fid n now cs (i :: fed) hn hcov, hdec]
    rw [herase]
  · have hc : ¬((mkBuf frm w h fid n now cs (i :: fed)).is_complete = true) := by
      intro hcc
      apply hcomp
      intro j hj
      have := (mkBuf_complete_iff frm w h fid n now cs (i :: fed)).mp hcc j hj
      simpa using this
    rw [if_neg hcomp]
    rw [if_neg hc]
    rw [hins]

theorem feedAll_append (st : NetworkNode) (now : Nat) (l1 l2 : List Message) :
    feedAll st now (l1 ++ l2)
      = ((feedAll (feedAll st now l1).1 now l2).1,
         (feedAll st now l1).2 ++ (feedAll (feedAll st now l1).1 now l2).2) := by
  induction l1 generalizing st with
  | nil => simp [feedAll]
  | cons m ms ih =>
      simp only [List.cons_append, feedAll, List.append_eq]
      rw [ih]

theorem feed_partial (now : Nat) (frm : Bytes) (w h fid n : Nat) (cs : List Bytes)
    (px : Bytes) (hn : cs.length = n)
    (hdec : decompressSizePrepended cs.flatten = some px) :
    ∀ (todo fed : List Nat) (st : NetworkNode),
      (∀ j ∈ todo, j < n) →
      (∃ j, j < n ∧ j ∉ fed ++ todo) →
      fed ≠ [] →
      st.fragment_buffers = [((frm, fid), mkBuf frm w h fid n now cs fed)] →
      (feedAll st now (msgsOf frm w h fid n cs todo)).2 = todo.map (fun _ => none) ∧
      (feedAll st now (msgsOf frm w h fid n cs todo)).1.fragment_buffers
        = [((frm, fid), mkBuf frm w h fid n now cs (fed ++ todo))] := by
  intro todo
  induction todo with
  | nil =>
      intro fed st hall hmiss hf hst
      simp [msgsOf, feedAll, hst]
  | cons i todo ih =>
      intro fed st hall hmiss hf hst
      obtain ⟨j, hjn, hjni⟩ := hmiss
      have hstep := pf_step st now frm w h fid n i cs fed px hn (hall i (by simp)) hdec
        (by rw [if_neg hf]; exact hst)
      have hnc : ¬(∀ k, k < n → k = i ∨ k ∈ fed) := by
        intro hcc
        rcases hcc j hjn with hh | hh
        · exact hjni (by simp [hh])
        · exact hjni (by simp [hh])
      rw [if_neg hnc] at hstep
      have hmsgs : msgsOf frm w h fid n cs (i :: todo)
          = Message.videoFrameFragment frm w h fid i n (cs.getD i [])
              :: msgsOf frm w h fid n cs todo := rfl
      rw [hmsgs]
      simp only [feedAll, feedOne]
      rw [hstep]
      obtain ⟨ih1, ih2⟩ := ih (i :: fed)
        { st with fragment_buffers := [((frm, fid), mkBuf frm w h fid n now cs (i :: fed))] }
        (fun j hj => hall j (by simp [hj]))
        ⟨j, hjn, by
          intro hc
          apply hjni
          simp only [List.mem_append, List.mem_cons] at hc ⊢
          tauto⟩
        (by simp)
        rfl
      refine ⟨?_, ?_⟩
      · simp only [ih1, List.map_cons]
      · rw [ih2]
        congr 1
        rw [mkBuf_congr frm w h fid n now cs ((i :: fed) ++ todo) (fed ++ i :: todo)
          (by intro k; simp [List.mem_append, List.mem_cons]; tauto)]

theorem feed_complete (now : Nat) (frm : Bytes) (w h fid n : Nat) (cs : List Bytes)
    (px : Bytes) (hn : cs.length = n)
    (hdec : decompressSizePrepended cs.flatten = some px)
    (idxs : List Nat) (hnd : idxs.Nodup) (hall : ∀ j ∈ idxs, j < n)
    (hcov : ∀ j, j < n → j ∈ idxs) (hne : idxs ≠ [])
    (st : NetworkNode) (hst : st.fragment_buffers = []) :
    (feedAll st now (msgsOf frm w h fid n cs idxs)).2
      = List.replicate (idxs.length - 1) none ++ [some (.videoFrame frm w h px)] ∧
    (feedAll st now (msgsOf frm w h fid n cs idxs)).1.fragment_buffers = [] := by
  cases idxs with
  | nil => exact absurd rfl hne
  | cons i0 rest =>
      rcases List.eq_nil_or_concat rest with hr | ⟨mid, last, hr⟩
      all_goals try rw [List.concat_eq_append] at hr
      · subst hr
        have hstep := pf_step st now frm w h fid n i0 cs [] px hn (hall i0 (by simp)) hdec
          (by simpa using hst)
        rw [if_pos (by
          intro j hj
          have := hcov j hj
          simp only [List.mem_singleton] at this
          exact Or.inl this)] at hstep
        have hmsgs : msgsOf frm w h fid n cs [i0]
            = [Message.videoFrameFragment frm w h fid i0 n (cs.getD i0 [])] := rfl
        rw [hmsgs]
        simp only [feedAll, feedOne]
        rw [hstep]
        simp
      · subst hr
        rw [List.nodup_cons] at hnd
        have hlast_n : last < n := hall last (by simp)
        have hi0_ne_last : ¬(last = i0) := by
          intro hh
          exact hnd.1 (by rw [← hh]; simp)
        have hlast_nmem : last ∉ mid := by
          intro hh
          have := hnd.2
          rw [List.nodup_append] at this
          exact this.2.2 hh (by simp)
        have hstep := pf_step st now frm w h fid n i0 cs [] px hn (hall i0 (by simp)) hdec
          (by simpa using hst)
        rw [if_neg (by
          intro hcc
          rcases hcc last hlast_n with hh | hh
          · exact hi0_ne_last hh
          · simp at hh)] at hstep
        have hmsgs : msgsOf frm w h fid n cs (i0 :: (mid ++ [last]))
            = Message.videoFrameFragment frm w h fid i0 n (cs.getD i0 [])
                :: (msgsOf frm w h fid n cs mid ++ msgsOf frm w h fid n cs [last]) := by
          simp [msgsOf]
        rw [hmsgs]
        simp only [feedAll, feedOne]
        rw [hstep]
        rw [feedAll_append]
        obtain ⟨hp1, hp2⟩ := feed_partial now frm w h fid n cs px hn hdec mid [i0]
          { st with fragment_buffers := [((frm, fid), mkBuf frm w h fid n now cs [i0])] }
          (fun j hj => hall j (by simp [hj]))
          ⟨last, hlast_n, by
            intro hc
            simp only [List.mem_append, List.mem_cons, List.not_mem_nil, or_false] at hc
            rcases hc with hc | hc
            · exact hi0_ne_last hc
            · exact hlast_nmem hc⟩
          (by simp)
          rfl
        rw [hp1]
        have hstate2 := hp2
        have hlaststep := pf_step (feedAll
            { st with fragment_buffers := [((frm, fid), mkBuf frm w h fid n now cs [i0])] }
            now (msgsOf frm w h fid n cs mid)).1
          now frm w h fid n last cs ([i0] ++ mid) px hn hlast_n hdec
          (by rw [if_neg (by simp)]; exact hstate2)
        rw [if_pos (by
          intro j hj
          have := hcov j hj
          simp only [List.mem_cons, List.mem_append, List.mem_singleton] at this
          rcases this with hh | hh | hh
          · exact Or.inr (by simp [hh])
          · exact Or.inr (by simp [hh])
          · exact Or.inl (by simpa using hh))] at hlaststep
        have hmsgs2 : msgsOf frm w h fid n cs [last]
            = [Message.videoFrameFragment frm w h fid last n (cs.getD last [])] := rfl
        rw [hmsgs2]
        simp only [feedAll, feedOne]
        rw [hlaststep]
        constructor
        · simp only [List.map_const']
          simp [List.length_append, List.replicate_succ]
        · rfl

theorem chunksOf_single (sz : Nat) (l : Bytes) (h1 : l ≠ []) (h2 : l.length ≤ sz) :
    chunksOf sz l = [l] := by
  have hsz : ¬(sz = 0 ∨ l = []) := by
    push_neg
    refine ⟨?_, h1⟩
    intro hz
    subst hz
    exact h1 (List.eq_nil_of_length_eq_zero (by omega))
  rw [chunksOf, dif_neg hsz, List.take_of_length_le h2, List.drop_eq_nil_of_le h2]
  rw [chunksOf, dif_pos (Or.inr rfl)]

theorem enum_map_eq_range_map (l : List Bytes) (f : Nat × Bytes → Message) :
    l.enum.map f = (List.range l.length).map (fun i => f (i, l.getD i [])) := by
  apply List.ext_getElem
  · simp [List.enum_length]
  · intro i h1 h2
    have hil : i < l.length := by simpa using h2
    simp only [List.getElem_map, List.getElem_enum, List.getElem_range]
    rw [List.getD_eq_getElem l [] hil]

theorem send_video_frame_msgs (frm : Bytes) (w h fid : Nat) (pixels : Bytes)
    (hlen : pixels.length ≤ 200000) :
    NetworkNode.send_video_frame frm w h pixels fid
      = .ok (msgsOf frm w h fid (chunksOf 1400 (compressPrependSize pixels)).length
          (chunksOf 1400 (compressPrependSize pixels))
          (List.range (chunksOf 1400 (compressPrependSize pixels)).length)) := by
  have hCL : (compressPrependSize pixels).length = pixels.length + 4 := by
    simp [compressPrependSize, u32le]
  have hCne : compressPrependSize pixels ≠ [] := by
    intro hh
    rw [hh] at hCL
    simp at hCL
  have hn : (chunksOf 1400 (compressPrependSize pixels)).length
      = ((compressPrependSize pixels).length + 1399) / 1400 := chunksOf_length_1400 _
  unfold NetworkNode.send_video_frame
  simp only [MAX_FRAGMENT_SIZE]
  by_cases hle : (compressPrependSize pixels).length ≤ 1400
  · rw [if_pos hle, chunksOf_single 1400 _ hCne hle]
    rfl
  · rw [if_neg hle, if_neg (by omega)]
    congr 1
    rw [enum_map_eq_range_map]
    unfold msgsOf
    apply List.map_congr_left
    intro i hi
    have hiL : i < (chunksOf 1400 (compressPrependSize pixels)).length := List.mem_range.mp hi
    have hu1 : u8c i = i := Nat.mod_eq_of_lt (by omega)
    have hu2 : u8c (((compressPrependSize pixels).length + (1400 - 1)) / 1400)
        = (chunksOf 1400 (compressPrependSize pixels)).length := by
      norm_num
      rw [hn]
      exact Nat.mod_eq_of_lt (by omega)
    rw [hu1, hu2]

/-- C3: for every pixel buffer of at most 200,000 bytes, compressing and
fragmenting it as `send_video_frame` does, then feeding the resulting
fragments to `process_fragment` — in original index order and also in
reverse order — yields exactly one `Some(VideoFrame)`, as the final result,
whose pixels equal the original buffer byte for byte, with the fragment
buffer removed from the map afterwards. -/
theorem fragment_reassembly_roundtrip (pixels : Bytes) (hlen : pixels.length ≤ 200000)
    (frm : Bytes) (w h fid now : Nat) (st : NetworkNode)
    (hbufs : st.fragment_buffers = []) :
    ∃ msgs, NetworkNode.send_video_frame frm w h pixels fid = .ok msgs ∧
      1 ≤ msgs.length ∧
      (feedAll st now msgs).2
        = List.replicate (msgs.length - 1) none ++ [some (.videoFrame frm w h pixels)] ∧
      (feedAll st now msgs).1.fragment_buffers = [] ∧
      (feedAll st now msgs.reverse).2
        = List.replicate (msgs.length - 1) none ++ [some (.videoFrame frm w h pixels)] ∧
      (feedAll st now msgs.reverse).1.fragment_buffers = [] := by
  set C := compressPrependSize pixels with hC
  set cs := chunksOf 1400 C with hcs
  set n := cs.length with hnn
  have hCL : C.length = pixels.length + 4 := by
    simp [hC, compressPrependSize, u32le]
  have hn : cs.length = (C.length + 1399) / 1400 := chunksOf_length_1400 C
  have hn1 : 1 ≤ n := by
    rw [hnn, hn]
    omega
  have hdec : decompressSizePrepended cs.flatten = some pixels := by
    rw [hcs, chunksOf_flatten 1400 (by norm_num) C, hC]
    exact compress_decompress pixels (by omega)
  refine ⟨msgsOf frm w h fid n cs (List.range n), send_video_frame_msgs frm w h fid pixels hlen,
    by simp [msgsOf]; omega, ?_⟩
  have hfwd := feed_complete now frm w h fid n cs pixels rfl hdec (List.range n)
    (List.nodup_range n) (by simp) (by simp) (by simp; omega) st hbufs
  have hrevmsgs : (msgsOf frm w h fid n cs (List.range n)).reverse
      = msgsOf frm w h fid n cs (List.range n).reverse := by
    simp [msgsOf, List.map_reverse]
  have hrev := feed_complete now frm w h fid n cs pixels rfl hdec (List.range n).reverse
    (by simp [List.nodup_range]) (by simp) (by simp) (by simp; omega) st hbufs
  refine ⟨?_, hfwd.2, ?_, ?_⟩
  · rw [hfwd.1]
    simp [msgsOf]
  · rw [hrevmsgs, hrev.1]
    simp [msgsOf]
  · rw [hrevmsgs]
    exact hrev.2

/-- Witness for C3 at a concrete 1-byte pixel buffer. -/
theorem fragment_reassembly_roundtrip_witness :
    ∃ msgs, NetworkNode.send_video_frame [120] 2 2 [7] 3 = .ok msgs ∧
      1 ≤ msgs.length ∧
      (feedAll sampleNode 0 msgs).2
        = List.replicate (msgs.length - 1) none
            ++ [some (Message.videoFrame [120] 2 2 [7])] ∧
      (feedAll sampleNode 0 msgs).1.fragment_buffers = [] ∧
      (feedAll sampleNode 0 msgs.reverse).2
        = List.replicate (msgs.length - 1) none
            ++ [some (Message.videoFrame [120] 2 2 [7])] ∧
      (feedAll sampleNode 0 msgs.reverse).1.fragment_buffers = [] :=
  fragment_reassembly_roundtrip [7] (by decide) [120] 2 2 3 0 sampleNode rfl
